import Mathlib

/-!
Verification of the refund-reconciliation and aggregation pipeline of the
Slotx sales-reports application (`src/app.py`).

The Python code operates on pandas DataFrames.  We embed each DataFrame as a
Lean list of records.  A sales row carries the stable pandas row index
(`idx`, strictly increasing in the original dataset), and the recognised
columns.  Quantities are integers (negative = refund); money amounts are
rationals (Python floats are modelled as exact rationals, which is faithful
to the arithmetic structure the spec claims are about).  Column-presence
checks (`'quantity' in df.columns` …) are modelled by explicit Boolean
flags, since the row records always carry every field.
-/

/-- A sales row, as read from the sales spreadsheet after brand cleaning:
`idx` is the pandas row index (row position in the original dataset). -/
structure SalesRow where
  idx : Nat
  branch_name : String := ""
  brand : String := ""
  name_ar : String := ""
  barcode : String := ""
  quantity : Int := 0
  total : ℚ := 0
deriving DecidableEq

/-- An inventory row, as read from the inventory spreadsheet. -/
structure InventoryRow where
  branch_name : String := ""
  brand : String := ""
  name_en : String := ""
  barcodes : String := ""
  sale_price : ℚ := 0
  available_quantity : ℚ := 0
deriving DecidableEq

/-- One refund step of `remove_refunds_and_original_sales` (`app.py` 69–84):
for the given refund row, filter the full table for potential originals
(same barcode, same brand, positive quantity, index not already marked for
removal), keep those whose quantity equals the absolute refund quantity, and
if any remain, add the index of the first one (pandas `.index[0]`, i.e. the
first row in dataframe order) to the removal set.  The removal set is a
Python `set`; we model it as a list of indices queried with `contains`. -/
def refundStep (rows : List SalesRow) (acc : List Nat) (refund : SalesRow) : List Nat :=
  let potential := rows.filter (fun r =>
    r.barcode == refund.barcode && r.brand == refund.brand &&
    decide (0 < r.quantity) && !(acc.contains r.idx))
  let matching := potential.filter (fun r => r.quantity == (refund.quantity.natAbs : Int))
  match matching.head? with
  | some m => acc ++ [m.idx]
  | none => acc

/-- `remove_refunds_and_original_sales` (`app.py` 54–89).  If the quantity or
barcode column is absent, return the input with counts (0,0).  Otherwise
collect the refund rows (quantity < 0); if none, return the input with
(0,0).  Otherwise seed the removal set with every refund index, run one
`refundStep` per refund in dataframe order, drop every row whose index is in
the removal set, and return the survivors together with the refund count and
the number of rows removed. -/
def remove_refunds_and_original_sales (hasQuantity hasBarcode : Bool)
    (rows : List SalesRow) : List SalesRow × Nat × Nat :=
  if !(hasQuantity && hasBarcode) then (rows, 0, 0)
  else
    let refunds := rows.filter (fun r => decide (r.quantity < 0))
    if refunds.isEmpty then (rows, 0, 0)
    else
      let init : List Nat := refunds.map (fun r => r.idx)
      let toRemove := refunds.foldl (refundStep rows) init
      let cleaned := rows.filter (fun r => !(toRemove.contains r.idx))
      (cleaned, refunds.length, rows.length - cleaned.length)

/-- Brand settings supplied per brand by the UI: a deal percentage and a
fixed rent amount (`app.py` 582–585). -/
structure BrandSettings where
  deal_percentage : ℚ := 0
  rent_amount : ℚ := 0
deriving DecidableEq

/-- Total sales money of a row set: the sum of the `total` column
(`app.py` 204). -/
def total_sales_money (sales : List SalesRow) : ℚ :=
  (sales.map (fun r => r.total)).sum

/-- The financial figures of a per-brand report sheet. -/
structure ReportFigures where
  total_sales_money : ℚ
  total_after_percentage : ℚ
  total_after_rent : ℚ
deriving DecidableEq

/-- The financial core of `create_report_sheet` (`app.py` 204, 214–215):
`total_after_percentage = total_sales_money − total_sales_money·pct/100` and
`total_after_rent = total_after_percentage − rent_amount`. -/
def create_report_figures (sales : List SalesRow) (settings : BrandSettings) :
    ReportFigures :=
  let m := total_sales_money sales
  let afterPct := m - m * settings.deal_percentage / 100
  { total_sales_money := m
  , total_after_percentage := afterPct
  , total_after_rent := afterPct - settings.rent_amount }

/-- Per-brand inventory value of `create_report_sheet` (`app.py` 201–202):
the pandas elementwise product `available_quantity * sale_price`, summed. -/
def report_total_inventory_value (inv : List InventoryRow) : ℚ :=
  (inv.map (fun r => r.available_quantity * r.sale_price)).sum

/-- Inventory totals of the all-brands summary (`app.py` 306–321): a loop
accumulating `qty` into the quantity total and `qty * price` into the value
total, row by row. -/
def summary_inventory_totals (inv : List InventoryRow) : ℚ × ℚ :=
  inv.foldl
    (fun acc r =>
      (acc.1 + r.available_quantity, acc.2 + r.available_quantity * r.sale_price))
    (0, 0)

/-- Update an accumulator dictionary the way `d[k] = d.get(k, 0) + q` updates
a Python dict: if the key is present, bump its value in place (insertion
order kept), otherwise append the new key at the end. -/
def bump (acc : List (String × Int)) (k : String) (q : Int) : List (String × Int) :=
  if acc.any (fun p => p.1 == k) then
    acc.map (fun p => if p.1 == k then (p.1, p.2 + q) else p)
  else acc ++ [(k, q)]

/-- The `product_sales` dictionary of `get_best_selling_products`
(`app.py` 118–125): summed quantity per distinct non-empty product name, in
insertion (first-appearance) order. -/
def product_sales_acc (sales : List SalesRow) : List (String × Int) :=
  sales.foldl
    (fun acc r => if r.name_ar == "" then acc else bump acc r.name_ar r.quantity) []

/-- Python `max` over a non-empty list of values (`max(product_sales.values())`);
the `[]` case is never reached in the code (guarded by a non-empty check). -/
def listMaxInt : List Int → Int
  | [] => 0
  | x :: xs => xs.foldl max x

/-- The `best_products` list of `get_best_selling_products` (`app.py`
130–131): all names whose summed quantity equals the maximum, in dictionary
insertion order. -/
def best_products_list (sales : List SalesRow) : List String :=
  let ps := product_sales_acc sales
  let maxSales := listMaxInt (ps.map (fun p => p.2))
  (ps.filter (fun p => p.2 == maxSales)).map (fun p => p.1)

/-- `get_best_selling_products` (`app.py` 113–136): empty string when the
row set is empty, the `name_ar` column is absent, or no row has a non-empty
product name; otherwise the single best name, or the tied best names joined
with a comma. -/
def get_best_selling_products (hasNameAr : Bool) (sales : List SalesRow) : String :=
  if sales.isEmpty || !hasNameAr then ""
  else
    let ps := product_sales_acc sales
    if ps.isEmpty then ""
    else
      let best := best_products_list sales
      if best.length == 1 then best.headD ""
      else String.intercalate ", " best

/-- The characters after the last occurrence of a separator: the last field
of Python's `split(sep)` (the whole string when the separator is absent). -/
def afterLast (sep : Char) (cs : List Char) : List Char :=
  cs.foldl (fun acc c => if c == sep then [] else acc ++ [c]) []

/-- Whitespace trimming on both ends, character-level — Python `strip()`. -/
def trimChars (cs : List Char) : List Char :=
  ((cs.dropWhile (fun c => c.isWhitespace)).reverse.dropWhile
    (fun c => c.isWhitespace)).reverse

/-- Python `strip()` on a string. -/
def pyStrip (s : String) : String := String.mk (trimChars s.toList)

/-- The size token of a product name (`app.py` 102–104): defined only when
the name contains a hyphen (`'-' in product_name`); then
`split('-')[-1].strip()` — the substring after the last hyphen, trimmed —
and only when that is non-empty. -/
def size_token (name : String) : Option String :=
  if name.toList.any (fun c => c == '-') then
    let t := String.mk (trimChars (afterLast '-' name.toList))
    if t == "" then none else some t
  else none

/-- The `size_sales` dictionary of `get_best_selling_size` (`app.py`
96–105): summed quantity per distinct size token, in insertion order. -/
def size_sales_acc (sales : List SalesRow) : List (String × Int) :=
  sales.foldl
    (fun acc r =>
      match size_token r.name_ar with
      | some t => bump acc t r.quantity
      | none => acc) []

/-- Python `max(d, key=d.get)` over a dictionary in insertion order: scan the
entries, replacing the current best only on a strictly greater value, so the
first entry attaining the maximum wins; return its key. -/
def pyMaxByValue (l : List (String × Int)) : String :=
  match l with
  | [] => ""
  | p :: ps => (ps.foldl (fun best q => if best.2 < q.2 then q else best) p).1

/-- `get_best_selling_size` (`app.py` 91–111): empty string when the row set
is empty, the `name_ar` column is absent, or no size token was accumulated;
otherwise the key of `size_sales` with the maximum summed quantity,
first-inserted winning among ties. -/
def get_best_selling_size (hasNameAr : Bool) (sales : List SalesRow) : String :=
  if sales.isEmpty || !hasNameAr then ""
  else if (size_sales_acc sales).isEmpty then ""
  else pyMaxByValue (size_sales_acc sales)

/-- The distinct values of a list in first-appearance order, as pandas
`Series.unique` returns them. -/
def uniqFirst : List String → List String
  | [] => []
  | b :: rest => b :: uniqFirst (rest.filter (fun x => !(x == b)))
termination_by l => l.length
decreasing_by
  simp only [List.length_cons]
  exact Nat.lt_succ_of_le (List.length_filter_le _ _)

/-- `sales_df['brand'].dropna().unique()` (`app.py` 376): after brand
cleaning the brand column holds strings only (never NaN), so `dropna` drops
nothing and the result is the distinct brands in first-appearance order. -/
def unique_brands (sales : List SalesRow) : List String :=
  uniqFirst (sales.map (fun r => r.brand))

/-- `sales_df[sales_df['brand'] == brand]['total'].sum()` (`app.py` 378–379):
the sales-money subtotal of one brand. -/
def brand_total (sales : List SalesRow) (b : String) : ℚ :=
  ((sales.filter (fun r => r.brand == b)).map (fun r => r.total)).sum

/-- `brand_settings_dict.get(brand, {'deal_percentage': 0, 'rent_amount': 0})`
(`app.py` 381): look the brand up in the settings mapping, defaulting both
fields to zero. -/
def settings_for (dict : List (String × BrandSettings)) (b : String) : BrandSettings :=
  match dict.find? (fun p => p.1 == b) with
  | some p => p.2
  | none => {}

/-- The summary's total sales money (`app.py` 277–289): a loop over all
sales rows accumulating the `total` field. -/
def summary_total_sales_money (sales : List SalesRow) : ℚ :=
  sales.foldl (fun acc r => acc + r.total) 0

/-- `total_percentage_deducted` of the summary (`app.py` 373–386): for every
distinct brand, that brand's subtotal times that brand's own deal percentage
over 100, summed. -/
def total_percentage_deducted (sales : List SalesRow)
    (dict : List (String × BrandSettings)) : ℚ :=
  ((unique_brands sales).map
    (fun b => brand_total sales b * (settings_for dict b).deal_percentage / 100)).sum

/-- `total_rent_deducted` of the summary (`app.py` 374–387): every distinct
brand's own rent amount, summed. -/
def total_rent_deducted (sales : List SalesRow)
    (dict : List (String × BrandSettings)) : ℚ :=
  ((unique_brands sales).map (fun b => (settings_for dict b).rent_amount)).sum

/-- `total_after_all_deductions` (`app.py` 389): the dataset-wide sales
money minus the summed percentage deductions minus the summed rents. -/
def total_after_all_deductions (sales : List SalesRow)
    (dict : List (String × BrandSettings)) : ℚ :=
  summary_total_sales_money sales - total_percentage_deducted sales dict -
    total_rent_deducted sales dict

/-- A raw sales row as read from the spreadsheet, before normalization:
every field may be missing (pandas NaN), modelled as `none`. -/
structure RawSalesRow where
  branch_name : Option String := none
  brand : Option String := none
  name_ar : Option String := none
  barcode : Option String := none
  quantity : Option Int := none
  total : Option ℚ := none
deriving DecidableEq

/-- A raw DataFrame: the column names exactly as they appear in the file,
plus the rows. -/
structure RawFrame where
  cols : List String
  rows : List RawSalesRow
deriving DecidableEq

/-- Python `str.title()` character scan, ASCII model: a character is
uppercased when the previous character is not alphabetic, lowercased
otherwise. -/
def titleCaseAux : Bool → List Char → List Char
  | _, [] => []
  | prevAlpha, c :: cs =>
    (if prevAlpha then c.toLower else c.toUpper) :: titleCaseAux c.isAlpha cs

/-- Python `str.title()` on a whole string (ASCII model). -/
def titleCase (s : String) : String := String.mk (titleCaseAux false s.toList)

/-- `astype(str)` on one cell: pandas renders a missing value (NaN) as the
string `"nan"`; a present string stays itself. -/
def pyStrOfOpt : Option String → String
  | none => "nan"
  | some s => s

/-- One brand cell under `clean_brand_names` (`app.py` 37):
`astype(str).str.strip().str.title()`. -/
def cleanBrandValue (b : Option String) : String :=
  titleCase (pyStrip (pyStrOfOpt b))

/-- `clean_brand_names` (`app.py` 34–38) as a frame transformation: when a
`brand` column exists, overwrite every row's brand with its cleaned value;
otherwise leave the frame unchanged.  In Python this happens by in-place
column assignment on the argument object, which is also returned. -/
def clean_brand_names (df : RawFrame) : RawFrame :=
  if df.cols.contains "brand" then
    { df with rows := df.rows.map (fun r => { r with brand := some (cleanBrandValue r.brand) }) }
  else df

/-- `df.columns = df.columns.str.strip()` (`app.py` 424–425): trim every
column name, in place on the argument object. -/
def trimCols (df : RawFrame) : RawFrame :=
  { df with cols := df.cols.map (fun c => pyStrip c) }

/-- A row every one of whose fields is missing — exactly the rows
`dropna(how='all')` drops. -/
def rowIsAllNa (r : RawSalesRow) : Bool :=
  r.branch_name.isNone && r.brand.isNone && r.name_ar.isNone &&
    r.barcode.isNone && r.quantity.isNone && r.total.isNone

/-- `df.dropna(how='all')` (`app.py` 430): drop the rows whose every field
is missing.  This allocates a new frame; the argument is not mutated. -/
def dropAllNaRows (df : RawFrame) : RawFrame :=
  { df with rows := df.rows.filter (fun r => !(rowIsAllNa r)) }

/-- The normalization prefix of `process_files` (`app.py` 424–431) applied
to the caller's sales frame, with the heap effect made explicit.  The first
component is the value the pipeline continues with
(`dropna(how='all')` of the trimmed, brand-cleaned frame).  The second
component is the state of the caller's dataframe object after the call:
`df.columns = df.columns.str.strip()` and the column assignment inside
`clean_brand_names` both mutate the caller's object in place (the function
returns that same object), while `dropna` allocates a fresh frame — so the
caller's object ends up trimmed and brand-cleaned but with all rows. -/
def normalizeCall (df : RawFrame) : RawFrame × RawFrame :=
  let mutated := clean_brand_names (trimCols df)
  (dropAllNaRows mutated, mutated)

/-- The candidate with the lowest `idx` in a list, if any. -/
def minIdxElem : List SalesRow → Option SalesRow
  | [] => none
  | r :: rs =>
    match minIdxElem rs with
    | none => some r
    | some m => if r.idx ≤ m.idx then some r else some m

/-- Modelled from the spec's narrative of the refund reconciler (§4.2,
claim C1): process each refund in original row order; first remove the
refund row itself, then, among the not-yet-removed rows with the same
barcode, the same brand, a positive quantity, and quantity exactly the
absolute refund quantity, remove the one with the lowest original row
index, when one exists. -/
def specStep (rows : List SalesRow) (removed : List Nat) (refund : SalesRow) : List Nat :=
  let removed1 := removed ++ [refund.idx]
  let matching := rows.filter (fun r =>
    !(removed1.contains r.idx) && r.barcode == refund.barcode &&
    r.brand == refund.brand && decide (0 < r.quantity) &&
    r.quantity == (refund.quantity.natAbs : Int))
  match minIdxElem matching with
  | some m => removed1 ++ [m.idx]
  | none => removed1

/-- Modelled from the spec's narrative (§4.2, claim C1): run `specStep` over
the refund rows in original order starting from an empty removal set, and
return the surviving rows in original order with the same counts the code
reports. -/
def reconcileSpec (rows : List SalesRow) : List SalesRow × Nat × Nat :=
  let refunds := rows.filter (fun r => decide (r.quantity < 0))
  let removed := refunds.foldl (specStep rows) []
  let surviving := rows.filter (fun r => !(removed.contains r.idx))
  (surviving, refunds.length, rows.length - surviving.length)

/-- Folding `acc + f r` over a list starting from `a` is `a` plus the sum of
the mapped list. -/
theorem foldl_add_map {α : Type} (f : α → ℚ) :
    ∀ (l : List α) (a : ℚ), l.foldl (fun acc r => acc + f r) a = a + (l.map f).sum := by
  intro l
  induction l with
  | nil => intro a; simp
  | cons x xs ih => intro a; simp [ih, add_assoc]

/-- The summary's sales-money loop agrees with the column sum. -/
theorem summary_total_sales_money_eq (sales : List SalesRow) :
    summary_total_sales_money sales = total_sales_money sales := by
  simpa [summary_total_sales_money, total_sales_money] using
    foldl_add_map (fun r : SalesRow => r.total) sales 0

/-- The second component of the summary's inventory loop is the row-wise
quantity-times-price sum. -/
theorem summary_inventory_totals_snd (inv : List InventoryRow) :
    (summary_inventory_totals inv).2 =
      (inv.map (fun r => r.available_quantity * r.sale_price)).sum := by
  have h : ∀ (l : List InventoryRow) (a b : ℚ),
      (l.foldl
        (fun acc r =>
          (acc.1 + r.available_quantity, acc.2 + r.available_quantity * r.sale_price))
        (a, b)).2 = b + (l.map (fun r => r.available_quantity * r.sale_price)).sum := by
    intro l
    induction l with
    | nil => intro a b; simp
    | cons x xs ih => intro a b; simp [ih, add_assoc]
  simpa [summary_inventory_totals] using h inv 0 0

/-- Claim C3: the per-brand report computes money after percentage as
salesMoney − salesMoney·percentage/100 and money after rent as that result
minus the rent — rent is deducted after the percentage, so salesMoney=1000,
percentage=10, rent=100 give 900 and 800, not the 810 of the other order. -/
theorem C3_report_money_order :
    (∀ (sales : List SalesRow) (settings : BrandSettings),
      (create_report_figures sales settings).total_after_percentage =
        total_sales_money sales * (100 - settings.deal_percentage) / 100 ∧
      (create_report_figures sales settings).total_after_rent =
        total_sales_money sales * (100 - settings.deal_percentage) / 100 -
          settings.rent_amount) ∧
    ((create_report_figures [{ idx := 0, total := 600 }, { idx := 1, total := 400 }]
        { deal_percentage := 10, rent_amount := 100 }).total_after_percentage = 900 ∧
     (create_report_figures [{ idx := 0, total := 600 }, { idx := 1, total := 400 }]
        { deal_percentage := 10, rent_amount := 100 }).total_after_rent = 800 ∧
     (create_report_figures [{ idx := 0, total := 600 }, { idx := 1, total := 400 }]
        { deal_percentage := 10, rent_amount := 100 }).total_after_rent ≠
       (total_sales_money [{ idx := 0, total := 600 }, { idx := 1, total := 400 }] - 100) *
         (100 - 10) / 100) := by
  constructor
  · intro sales settings
    constructor
    · simp only [create_report_figures]
      ring
    · simp only [create_report_figures]
      ring
  · refine ⟨?_, ?_, ?_⟩ <;> norm_num [create_report_figures, total_sales_money]

/-- Claim C7: the reported inventory value is the sum over rows of
available_quantity × sale_price, both in the per-brand report and in the
all-brands summary loop; rows (2,10),(3,5) give 35, not the 75 of
sum-of-quantities × sum-of-prices. -/
theorem C7_inventory_value_rowwise :
    (∀ inv : List InventoryRow,
      report_total_inventory_value inv =
        (inv.map (fun r => r.available_quantity * r.sale_price)).sum ∧
      (summary_inventory_totals inv).2 = report_total_inventory_value inv) ∧
    (report_total_inventory_value
        [{ available_quantity := 2, sale_price := 10 },
         { available_quantity := 3, sale_price := 5 }] = 35 ∧
     (summary_inventory_totals
        [{ available_quantity := 2, sale_price := 10 },
         { available_quantity := 3, sale_price := 5 }]).2 = 35 ∧
     ((([{ available_quantity := 2, sale_price := 10 },
          { available_quantity := 3, sale_price := 5 }] : List InventoryRow).map
            (fun r => r.available_quantity)).sum *
       (([{ available_quantity := 2, sale_price := 10 },
          { available_quantity := 3, sale_price := 5 }] : List InventoryRow).map
            (fun r => r.sale_price)).sum) = 75 ∧
     (35 : ℚ) ≠ 75) := by
  constructor
  · intro inv
    exact ⟨rfl, by rw [summary_inventory_totals_snd]; rfl⟩
  · refine ⟨?_, ?_, ?_, ?_⟩ <;>
      norm_num [report_total_inventory_value, summary_inventory_totals]

/-- The removal set only grows across one refund step. -/
theorem mem_refundStep_of_mem {rows : List SalesRow} {acc : List Nat}
    {refund : SalesRow} {x : Nat} (hx : x ∈ acc) :
    x ∈ refundStep rows acc refund := by
  simp only [refundStep]
  split
  · exact List.mem_append_left _ hx
  · exact hx

/-- The removal set only grows across the whole refund loop. -/
theorem mem_foldl_refundStep (rows : List SalesRow) :
    ∀ (refunds : List SalesRow) (acc : List Nat) (x : Nat), x ∈ acc →
      x ∈ refunds.foldl (refundStep rows) acc := by
  intro refunds
  induction refunds with
  | nil => intro acc x hx; simpa using hx
  | cons q qs ih => intro acc x hx; exact ih _ _ (mem_refundStep_of_mem hx)

/-- When no row has a negative quantity, the reconciler returns the input
with both counts zero, whatever the column flags. -/
theorem remove_refunds_nonneg (hq hb : Bool) (rows : List SalesRow)
    (h : ∀ r ∈ rows, 0 ≤ r.quantity) :
    remove_refunds_and_original_sales hq hb rows = (rows, 0, 0) := by
  have hfilter : rows.filter (fun r => decide (r.quantity < 0)) = [] := by
    apply List.filter_eq_nil_iff.mpr
    intro r hr
    simpa using not_lt.mpr (h r hr)
  unfold remove_refunds_and_original_sales
  split
  · rfl
  · simp [hfilter]

/-- With both columns present, the reconciler reduces to the refund loop. -/
theorem remove_refunds_true_true (rows : List SalesRow) :
    remove_refunds_and_original_sales true true rows =
      (if (rows.filter (fun r => decide (r.quantity < 0))).isEmpty then (rows, 0, 0)
       else
        let refunds := rows.filter (fun r => decide (r.quantity < 0))
        let init : List Nat := refunds.map (fun r => r.idx)
        let toRemove := refunds.foldl (refundStep rows) init
        let cleaned := rows.filter (fun r => !(toRemove.contains r.idx))
        (cleaned, refunds.length, rows.length - cleaned.length)) := rfl

/-- Every surviving row of the column-present reconciler has non-negative
quantity: refund rows are all seeded into the removal set. -/
theorem remove_refunds_output_nonneg (rows : List SalesRow) (r : SalesRow)
    (hr : r ∈ (remove_refunds_and_original_sales true true rows).1) :
    ¬ r.quantity < 0 := by
  rw [remove_refunds_true_true] at hr
  by_cases hemp : (rows.filter (fun r => decide (r.quantity < 0))).isEmpty
  · rw [if_pos hemp] at hr
    intro hneg
    have : r ∈ rows.filter (fun r => decide (r.quantity < 0)) := by
      simp [List.mem_filter, hr, hneg]
    rw [List.isEmpty_iff] at hemp
    simp [hemp] at this
  · rw [if_neg hemp] at hr
    simp only [List.mem_filter] at hr
    intro hneg
    have hidx : r.idx ∈
        (rows.filter (fun r => decide (r.quantity < 0))).map (fun r => r.idx) := by
      exact List.mem_map_of_mem _ (by simp [List.mem_filter, hr.1, hneg])
    have := mem_foldl_refundStep rows (rows.filter (fun r => decide (r.quantity < 0))) _ _ hidx
    simp [this] at hr

/-- Claim C2: on a table with no negative quantities, or one lacking the
quantity or the barcode column, the reconciler returns the input unchanged
with both counts zero; the column-present output never contains a
negative-quantity row, and applying the reconciler twice yields the same
surviving rows as applying it once. -/
theorem C2_reconcile_noop_idempotent :
    (∀ (hq hb : Bool) (rows : List SalesRow),
       (∀ r ∈ rows, 0 ≤ r.quantity) →
       remove_refunds_and_original_sales hq hb rows = (rows, 0, 0)) ∧
    (∀ (hb : Bool) (rows : List SalesRow),
       remove_refunds_and_original_sales false hb rows = (rows, 0, 0)) ∧
    (∀ (hq : Bool) (rows : List SalesRow),
       remove_refunds_and_original_sales hq false rows = (rows, 0, 0)) ∧
    (∀ (rows : List SalesRow) (r : SalesRow),
       r ∈ (remove_refunds_and_original_sales true true rows).1 → ¬ r.quantity < 0) ∧
    (∀ (hq hb : Bool) (rows : List SalesRow),
       (remove_refunds_and_original_sales hq hb
         (remove_refunds_and_original_sales hq hb rows).1).1 =
       (remove_refunds_and_original_sales hq hb rows).1) := by
  refine ⟨remove_refunds_nonneg, ?_, ?_, remove_refunds_output_nonneg, ?_⟩
  · intro hb rows; rfl
  · intro hq rows; cases hq <;> rfl
  · intro hq hb rows
    cases hq with
    | false => rfl
    | true =>
      cases hb with
      | false => rfl
      | true =>
        have hnn : ∀ r ∈ (remove_refunds_and_original_sales true true rows).1,
            0 ≤ r.quantity := fun r hr =>
          not_lt.mp (remove_refunds_output_nonneg rows r hr)
        rw [remove_refunds_nonneg true true _ hnn]

/-- Instantiation of claim C2 at concrete inputs. -/
theorem C2_reconcile_noop_idempotent_witness :
    remove_refunds_and_original_sales true true [{ idx := 0, quantity := 3 }] =
      ([{ idx := 0, quantity := 3 }], 0, 0) ∧
    ¬ ({ idx := 1, quantity := 2 } : SalesRow).quantity < 0 :=
  ⟨C2_reconcile_noop_idempotent.1 true true _ (by decide),
   C2_reconcile_noop_idempotent.2.2.2.1
     [{ idx := 0, quantity := -1 }, { idx := 1, quantity := 2 }] _ (by decide)⟩

/-- Filtering with a pointwise weaker predicate keeps at least as many
elements. -/
theorem length_filter_le_filter {α : Type} (l : List α) (p q : α → Bool)
    (h : ∀ a ∈ l, p a = true → q a = true) :
    (l.filter p).length ≤ (l.filter q).length := by
  induction l with
  | nil => simp
  | cons x xs ih =>
    have hx := h x (List.mem_cons_self x xs)
    have ih2 := ih (fun a ha hpa => h a (List.mem_cons_of_mem _ ha) hpa)
    by_cases hp : p x = true
    · simp only [List.filter_cons, hp, if_true, hx hp, List.length_cons]
      exact Nat.succ_le_succ ih2
    · simp only [List.filter_cons, hp, if_false]
      by_cases hq : q x = true
      · simp only [hq, if_true, List.length_cons]
        exact Nat.le_succ_of_le ih2
      · simp only [hq, if_false]
        exact ih2

/-- A list splits into the part satisfying a predicate and the rest. -/
theorem filter_length_split {α : Type} (l : List α) (p : α → Bool) :
    (l.filter p).length + (l.filter (fun a => !(p a))).length = l.length := by
  induction l with
  | nil => simp
  | cons x xs ih =>
    by_cases hp : p x = true <;> simp [List.filter_cons, hp, ← ih] <;> omega

/-- One refund step adds at most one index to the removal set. -/
theorem refundStep_length_le (rows : List SalesRow) (acc : List Nat)
    (refund : SalesRow) :
    (refundStep rows acc refund).length ≤ acc.length + 1 := by
  simp only [refundStep]
  split
  · simp
  · exact Nat.le_succ _

/-- The refund loop adds at most one index per refund. -/
theorem foldl_refundStep_length_le (rows : List SalesRow) :
    ∀ (rs : List SalesRow) (acc : List Nat),
      (rs.foldl (refundStep rows) acc).length ≤ acc.length + rs.length := by
  intro rs
  induction rs with
  | nil => intro acc; simp
  | cons x xs ih =>
    intro acc
    calc (List.foldl (refundStep rows) (refundStep rows acc x) xs).length
        ≤ (refundStep rows acc x).length + xs.length := ih _
      _ ≤ acc.length + 1 + xs.length :=
          Nat.add_le_add_right (refundStep_length_le rows acc x) _
      _ = acc.length + (x :: xs).length := by simp [List.length_cons]; omega

/-- With both columns present and at least one refund, the reconciler's
result spelled out. -/
theorem remove_refunds_spelled (rows : List SalesRow)
    (hne : ¬ (rows.filter (fun r => decide (r.quantity < 0))).isEmpty = true) :
    remove_refunds_and_original_sales true true rows =
      (rows.filter (fun r =>
         !(((rows.filter (fun r => decide (r.quantity < 0))).foldl (refundStep rows)
             ((rows.filter (fun r => decide (r.quantity < 0))).map (fun r => r.idx))).contains
           r.idx)),
       (rows.filter (fun r => decide (r.quantity < 0))).length,
       rows.length - (rows.filter (fun r =>
         !(((rows.filter (fun r => decide (r.quantity < 0))).foldl (refundStep rows)
             ((rows.filter (fun r => decide (r.quantity < 0))).map (fun r => r.idx))).contains
           r.idx))).length) := by
  rw [remove_refunds_true_true, if_neg hne]

/-- Claim C10: with both columns present and distinct row indices, the
reconciler reports refundCount = number of negative-quantity rows, removes
between refundCount and 2·refundCount rows, and the survivors are a
subsequence of the input. -/
theorem C10_refund_count_bounds (rows : List SalesRow)
    (h : (rows.map (fun r => r.idx)).Nodup) :
    (remove_refunds_and_original_sales true true rows).2.1 =
      (rows.filter (fun r => decide (r.quantity < 0))).length ∧
    (remove_refunds_and_original_sales true true rows).2.1 ≤
      (remove_refunds_and_original_sales true true rows).2.2 ∧
    (remove_refunds_and_original_sales true true rows).2.2 ≤
      2 * (remove_refunds_and_original_sales true true rows).2.1 ∧
    (remove_refunds_and_original_sales true true rows).1.Sublist rows := by
  by_cases hemp : (rows.filter (fun r => decide (r.quantity < 0))).isEmpty
  · rw [remove_refunds_true_true, if_pos hemp]
    rw [List.isEmpty_iff] at hemp
    simp [hemp]
  · rw [remove_refunds_spelled rows hemp]
    dsimp only
    set refunds := rows.filter (fun r => decide (r.quantity < 0)) with hrefunds
    set toRemove := refunds.foldl (refundStep rows) (refunds.map (fun r => r.idx))
      with htoRemove
    set cleaned := rows.filter (fun r => !(toRemove.contains r.idx)) with hcleaned
    have hsplit : (rows.filter (fun r => toRemove.contains r.idx)).length +
        cleaned.length = rows.length := by
      rw [hcleaned]
      exact filter_length_split rows (fun r => toRemove.contains r.idx)
    have hlower : refunds.length ≤
        (rows.filter (fun r => toRemove.contains r.idx)).length := by
      apply length_filter_le_filter
      intro a ha hpa
      have hmem : a ∈ refunds := List.mem_filter.mpr ⟨ha, hpa⟩
      have hidx : a.idx ∈ refunds.map (fun r => r.idx) :=
        List.mem_map_of_mem _ hmem
      have := mem_foldl_refundStep rows refunds _ _ hidx
      simpa using this
    have hupper : (rows.filter (fun r => toRemove.contains r.idx)).length ≤
        toRemove.length := by
      have hnd : ((rows.filter (fun r => toRemove.contains r.idx)).map
          (fun r => r.idx)).Nodup :=
        h.sublist (List.Sublist.map _ (List.filter_sublist _))
      have hsub : ∀ x ∈ (rows.filter (fun r => toRemove.contains r.idx)).map
          (fun r => r.idx), x ∈ toRemove := by
        intro x hx
        obtain ⟨r, hr, rfl⟩ := List.mem_map.mp hx
        have := (List.mem_filter.mp hr).2
        simpa using this
      calc (rows.filter (fun r => toRemove.contains r.idx)).length
          = ((rows.filter (fun r => toRemove.contains r.idx)).map
              (fun r => r.idx)).length := (List.length_map _ _).symm
        _ = ((rows.filter (fun r => toRemove.contains r.idx)).map
              (fun r => r.idx)).toFinset.card :=
            (List.toFinset_card_of_nodup hnd).symm
        _ ≤ toRemove.toFinset.card := by
            apply Finset.card_le_card
            intro x hx
            rw [List.mem_toFinset] at hx ⊢
            exact hsub x hx
        _ ≤ toRemove.length := List.toFinset_card_le _
    have hTR : toRemove.length ≤ refunds.length + refunds.length := by
      have := foldl_refundStep_length_le rows refunds
        (refunds.map (fun r => r.idx))
      simpa [List.length_map] using this
    refine ⟨rfl, by omega, by omega, List.filter_sublist _⟩

/-- Instantiation of claim C10 at a concrete refund/sale pair. -/
theorem C10_refund_count_bounds_witness :
    (remove_refunds_and_original_sales true true
        [{ idx := 0, brand := "B", barcode := "x", quantity := -2 },
         { idx := 1, brand := "B", barcode := "x", quantity := 2 }]).2.1 =
      (([{ idx := 0, brand := "B", barcode := "x", quantity := -2 },
          { idx := 1, brand := "B", barcode := "x", quantity := 2 }] :
            List SalesRow).filter (fun r => decide (r.quantity < 0))).length ∧
    (remove_refunds_and_original_sales true true
        [{ idx := 0, brand := "B", barcode := "x", quantity := -2 },
         { idx := 1, brand := "B", barcode := "x", quantity := 2 }]).2.1 ≤
      (remove_refunds_and_original_sales true true
        [{ idx := 0, brand := "B", barcode := "x", quantity := -2 },
         { idx := 1, brand := "B", barcode := "x", quantity := 2 }]).2.2 ∧
    (remove_refunds_and_original_sales true true
        [{ idx := 0, brand := "B", barcode := "x", quantity := -2 },
         { idx := 1, brand := "B", barcode := "x", quantity := 2 }]).2.2 ≤
      2 * (remove_refunds_and_original_sales true true
        [{ idx := 0, brand := "B", barcode := "x", quantity := -2 },
         { idx := 1, brand := "B", barcode := "x", quantity := 2 }]).2.1 ∧
    (remove_refunds_and_original_sales true true
        [{ idx := 0, brand := "B", barcode := "x", quantity := -2 },
         { idx := 1, brand := "B", barcode := "x", quantity := 2 }]).1.Sublist
      [{ idx := 0, brand := "B", barcode := "x", quantity := -2 },
       { idx := 1, brand := "B", barcode := "x", quantity := 2 }] :=
  C10_refund_count_bounds
    [{ idx := 0, brand := "B", barcode := "x", quantity := -2 },
     { idx := 1, brand := "B", barcode := "x", quantity := 2 }] (by decide)

/-- Filtering the mapped brands is mapping the filtered rows. -/
theorem map_brand_filter (xs : List SalesRow) (c : String) :
    (xs.map (fun r => r.brand)).filter (fun s => !(s == c)) =
      (xs.filter (fun r => !(r.brand == c))).map (fun r => r.brand) := by
  induction xs with
  | nil => rfl
  | cons x xs ih =>
    by_cases h : (x.brand == c) = true <;>
      simp [List.filter_cons, h, ih]

/-- A mapped sum splits along a Boolean predicate. -/
theorem sum_map_filter_split {α : Type} (f : α → ℚ) (p : α → Bool) (l : List α) :
    ((l.filter p).map f).sum + ((l.filter (fun a => !(p a))).map f).sum =
      (l.map f).sum := by
  induction l with
  | nil => simp
  | cons x xs ih =>
    by_cases h : p x = true <;>
      simp only [List.filter_cons, h, Bool.not_true, Bool.not_false, if_true, if_false,
        List.map_cons, List.sum_cons, List.map_nil] <;>
      push_cast <;> linarith [ih]

/-- Every element of `uniqFirst l` is an element of `l`. -/
theorem mem_uniqFirst {x : String} : ∀ {l : List String}, x ∈ uniqFirst l → x ∈ l := by
  intro l
  induction l using uniqFirst.induct with
  | case1 => intro h; simp [uniqFirst] at h
  | case2 b rest ih =>
    intro h
    rw [uniqFirst] at h
    rcases List.mem_cons.mp h with h1 | h2
    · exact h1 ▸ List.mem_cons_self _ _
    · exact List.mem_cons_of_mem _ (List.mem_of_mem_filter (ih h2))

/-- Removing the rows of one brand leaves the totals of any other brand
unchanged. -/
theorem brand_total_filter_ne (l : List SalesRow) (b c : String) (hbc : b ≠ c) :
    brand_total (l.filter (fun r => !(r.brand == c))) b = brand_total l b := by
  unfold brand_total
  rw [List.filter_filter]
  congr 1
  congr 1
  apply List.filter_congr
  intro r _
  by_cases h : (r.brand == b) = true
  · have : (r.brand == c) = false := by
      have hb : r.brand = b := by simpa using h
      simp [hb, hbc]
    simp [h, this]
  · simp [h]

/-- The per-brand sales subtotals over the distinct brands sum to the
dataset-wide sales money: every row is counted under exactly one brand. -/
theorem sum_brand_total (sales : List SalesRow) :
    ((unique_brands sales).map (fun b => brand_total sales b)).sum =
      total_sales_money sales := by
  have H : ∀ (n : Nat) (l : List SalesRow), l.length ≤ n →
      ((unique_brands l).map (fun b => brand_total l b)).sum = total_sales_money l := by
    intro n
    induction n with
    | zero =>
      intro l hl
      have : l = [] := List.eq_nil_of_length_eq_zero (Nat.le_zero.mp hl)
      subst this
      simp [unique_brands, uniqFirst, total_sales_money]
    | succ n ih =>
      intro l hl
      match l with
      | [] => simp [unique_brands, uniqFirst, total_sales_money]
      | x :: xs =>
        have hub : unique_brands (x :: xs) =
            x.brand :: unique_brands (xs.filter (fun r => !(r.brand == x.brand))) := by
          simp only [unique_brands, List.map_cons]
          rw [uniqFirst]
          rw [map_brand_filter]
        have hlen : (xs.filter (fun r => !(r.brand == x.brand))).length ≤ n := by
          have h1 := List.length_filter_le (fun r => !(r.brand == x.brand)) xs
          have h2 : xs.length ≤ n := by
            simpa [List.length_cons] using Nat.succ_le_succ_iff.mp hl
          omega
        have hih := ih (xs.filter (fun r => !(r.brand == x.brand))) hlen
        rw [hub, List.map_cons, List.sum_cons]
        have hx : brand_total (x :: xs) x.brand = x.total + brand_total xs x.brand := by
          unfold brand_total
          simp [List.filter_cons]
        have hrest : ((unique_brands (xs.filter (fun r => !(r.brand == x.brand)))).map
            (fun b => brand_total (x :: xs) b)).sum =
            ((unique_brands (xs.filter (fun r => !(r.brand == x.brand)))).map
              (fun b => brand_total (xs.filter (fun r => !(r.brand == x.brand))) b)).sum := by
          apply congrArg
          apply List.map_congr_left
          intro b hb
          have hbmem : b ∈ (xs.filter (fun r => !(r.brand == x.brand))).map
              (fun r => r.brand) := mem_uniqFirst hb
          have hbne : b ≠ x.brand := by
            obtain ⟨r, hr, rfl⟩ := List.mem_map.mp hbmem
            have := (List.mem_filter.mp hr).2
            intro heq
            rw [heq] at this
            simp at this
          have hcons : brand_total (x :: xs) b = brand_total xs b := by
            unfold brand_total
            have : (x.brand == b) = false := by
              simp only [beq_eq_false_iff_ne]
              exact fun hc => hbne hc.symm
            simp [List.filter_cons, this]
          rw [hcons, brand_total_filter_ne xs b x.brand hbne]
        rw [hrest, hih]
        have hsplit := sum_map_filter_split (fun r => r.total)
          (fun r => r.brand == x.brand) xs
        have hbt : brand_total xs x.brand =
            ((xs.filter (fun r => r.brand == x.brand)).map (fun r => r.total)).sum := rfl
        have htot : total_sales_money (x :: xs) = x.total + total_sales_money xs := by
          simp [total_sales_money]
        have htot2 : total_sales_money (xs.filter (fun r => !(r.brand == x.brand))) =
            ((xs.filter (fun r => !(r.brand == x.brand))).map (fun r => r.total)).sum := rfl
        rw [hx, htot, htot2]
        have : (xs.map (fun r => r.total)).sum = total_sales_money xs := rfl
        linarith [hsplit]
  exact H sales.length sales le_rfl

/-- A mapped sum of three-way differences splits into three mapped sums. -/
theorem sum_map_sub3 (l : List String) (f g k : String → ℚ) :
    (l.map (fun b => f b - g b - k b)).sum =
      (l.map f).sum - (l.map g).sum - (l.map k).sum := by
  induction l with
  | nil => simp
  | cons x xs ih => simp only [List.map_cons, List.sum_cons, ih]; ring

/-- Claim C8: the per-brand sales subtotals over the distinct brand keys sum
to the dataset-wide sales money used in the summary — brand cleaning leaves
every surviving row with a string brand key, so each row is counted under
exactly one brand. -/
theorem C8_brand_totals_partition (sales : List SalesRow) :
    ((unique_brands sales).map (fun b => brand_total sales b)).sum =
      summary_total_sales_money sales := by
  rw [summary_total_sales_money_eq]
  exact sum_brand_total sales

/-- Claim C4: the summary's total after all deductions decomposes as the sum
over distinct brands of that brand's own subtotal minus its own percentage
deduction minus its own rent; applying one global percentage to the grand
total gives a different number on a two-brand example with percentages 10
and 50. -/
theorem C4_summary_per_brand_deductions :
    (∀ (sales : List SalesRow) (dict : List (String × BrandSettings)),
      total_after_all_deductions sales dict =
        ((unique_brands sales).map (fun b =>
          brand_total sales b -
            brand_total sales b * (settings_for dict b).deal_percentage / 100 -
            (settings_for dict b).rent_amount)).sum) ∧
    (total_percentage_deducted
        [{ idx := 0, brand := "A", total := 100 }, { idx := 1, brand := "B", total := 100 }]
        [("A", { deal_percentage := 10 }), ("B", { deal_percentage := 50 })] = 60 ∧
     summary_total_sales_money
        [{ idx := 0, brand := "A", total := 100 }, { idx := 1, brand := "B", total := 100 }] *
        10 / 100 = 20 ∧
     summary_total_sales_money
        [{ idx := 0, brand := "A", total := 100 }, { idx := 1, brand := "B", total := 100 }] *
        50 / 100 = 100 ∧
     (60 : ℚ) ≠ 20 ∧ (60 : ℚ) ≠ 100) := by
  constructor
  · intro sales dict
    have hsplit := sum_map_sub3 (unique_brands sales)
      (fun b => brand_total sales b)
      (fun b => brand_total sales b * (settings_for dict b).deal_percentage / 100)
      (fun b => (settings_for dict b).rent_amount)
    rw [hsplit]
    unfold total_after_all_deductions total_percentage_deducted total_rent_deducted
    rw [summary_total_sales_money_eq, ← sum_brand_total]
  · refine ⟨?_, ?_, ?_, by norm_num, by norm_num⟩ <;>
    · simp [total_percentage_deducted, summary_total_sales_money, unique_brands,
        uniqFirst, List.filter_cons, brand_total, settings_for, List.find?]
      norm_num

/-- Dictionary lookup with default 0, as `d.get(k, 0)` reads a Python dict
(model helper for stating properties of the accumulators). -/
def lookupD : List (String × Int) → String → Int
  | [], _ => 0
  | p :: rest, k => if p.1 == k then p.2 else lookupD rest k

/-- The summed quantity of the rows bearing one product name — the quantity
the `product_sales` dictionary associates with that name. -/
def spec_product_qty (sales : List SalesRow) (name : String) : Int :=
  ((sales.filter (fun r => r.name_ar == name)).map (fun r => r.quantity)).sum

/-- `bump` leaves the key list unchanged when the key is present, and
appends the key otherwise. -/
theorem bump_keys (acc : List (String × Int)) (k : String) (q : Int) :
    (bump acc k q).map Prod.fst =
      if acc.any (fun p => p.1 == k) then acc.map Prod.fst
      else acc.map Prod.fst ++ [k] := by
  unfold bump
  split
  · rw [List.map_map]
    apply List.map_congr_left
    intro p _
    by_cases h : p.1 = k <;> simp [h]
  · simp

/-- Membership in the key list after a `bump`. -/
theorem bump_keys_mem (acc : List (String × Int)) (k : String) (q : Int) (x : String) :
    x ∈ (bump acc k q).map Prod.fst ↔ x = k ∨ x ∈ acc.map Prod.fst := by
  rw [bump_keys]
  split
  · constructor
    · exact fun h => Or.inr h
    · rintro (rfl | h)
      · rename_i hany
        obtain ⟨p, hp, hpk⟩ := List.any_eq_true.mp hany
        have : p.1 = x := by simpa using hpk
        exact this ▸ List.mem_map_of_mem _ hp
      · exact h
  · simp [or_comm]

/-- `bump` keeps the key list duplicate-free. -/
theorem bump_keys_nodup (acc : List (String × Int)) (k : String) (q : Int)
    (h : (acc.map Prod.fst).Nodup) : ((bump acc k q).map Prod.fst).Nodup := by
  rw [bump_keys]
  split
  · exact h
  · rename_i hany
    have hk : k ∉ acc.map Prod.fst := by
      intro hmem
      obtain ⟨p, hp, hpk⟩ := List.mem_map.mp hmem
      have : acc.any (fun p => p.1 == k) = true :=
        List.any_eq_true.mpr ⟨p, hp, by simp [hpk]⟩
      simp [this] at hany
    simp [List.nodup_append, h, hk]

/-- In-place value update of a present key adds the increment to its
looked-up value. -/
theorem lookupD_update_of_mem (k : String) (q : Int) :
    ∀ acc : List (String × Int), k ∈ acc.map Prod.fst →
      lookupD (acc.map (fun p => if p.1 == k then (p.1, p.2 + q) else p)) k =
        lookupD acc k + q := by
  intro acc
  induction acc with
  | nil => intro h; simp at h
  | cons p rest ih =>
    intro hmem
    by_cases hp : p.1 = k
    · simp [lookupD, hp]
    · have hbeq : (p.1 == k) = false := by simpa using hp
      have hmem2 : k ∈ rest.map Prod.fst := by
        rcases List.mem_map.mp hmem with ⟨p2, hp2, hk2⟩
        rcases List.mem_cons.mp hp2 with rfl | hrest
        · exact absurd hk2 hp
        · exact hk2 ▸ List.mem_map_of_mem _ hrest
      rw [List.map_cons, if_neg (by simp [hbeq] : ¬ ((p.1 == k) = true))]
      simp only [lookupD, hbeq, Bool.false_eq_true, if_false]
      exact ih hmem2

/-- Appending a fresh key puts the increment on a zero base. -/
theorem lookupD_append_self (k : String) (q : Int) :
    ∀ acc : List (String × Int), k ∉ acc.map Prod.fst →
      lookupD (acc ++ [(k, q)]) k = lookupD acc k + q := by
  intro acc
  induction acc with
  | nil => intro h; simp [lookupD]
  | cons p rest ih =>
    intro hmem
    have hp : (p.1 == k) = false := by
      simp only [beq_eq_false_iff_ne]
      intro hcon
      exact hmem (hcon ▸ List.mem_map_of_mem _ (List.mem_cons_self _ _))
    have hmem2 : k ∉ rest.map Prod.fst := fun hcon =>
      hmem (List.mem_cons_of_mem _ hcon)
    simp only [List.cons_append, lookupD, hp, Bool.false_eq_true, if_false]
    exact ih hmem2

/-- In-place value update of one key leaves other keys unchanged. -/
theorem lookupD_update_ne (k : String) (q : Int) (x : String) (hx : x ≠ k) :
    ∀ acc : List (String × Int),
      lookupD (acc.map (fun p => if p.1 == k then (p.1, p.2 + q) else p)) x =
        lookupD acc x := by
  intro acc
  induction acc with
  | nil => simp [lookupD]
  | cons p rest ih =>
    by_cases hpk : p.1 = k
    · have hpx : (p.1 == x) = false := by
        simp only [beq_eq_false_iff_ne]
        intro hcon
        exact hx ((hcon ▸ hpk : x = k))
      rw [List.map_cons, if_pos (by simp [hpk] : ((p.1 == k) = true))]
      simp only [lookupD, hpx, Bool.false_eq_true, if_false]
      exact ih
    · rw [List.map_cons, if_neg (by simp [hpk] : ¬ ((p.1 == k) = true))]
      by_cases hpx : (p.1 == x) = true
      · simp [lookupD, hpx]
      · simp only [lookupD, hpx, Bool.false_eq_true, if_false]
        exact ih

/-- Appending a fresh key leaves other keys unchanged. -/
theorem lookupD_append_ne (k : String) (q : Int) (x : String) (hx : x ≠ k) :
    ∀ acc : List (String × Int),
      lookupD (acc ++ [(k, q)]) x = lookupD acc x := by
  intro acc
  induction acc with
  | nil =>
    have : (k == x) = false := by
      simp only [beq_eq_false_iff_ne]
      exact fun hcon => hx hcon.symm
    simp [lookupD, this]
  | cons p rest ih =>
    by_cases hpx : (p.1 == x) = true
    · simp [lookupD, hpx]
    · simp only [List.cons_append, lookupD, hpx, Bool.false_eq_true, if_false]
      exact ih

/-- Bumping a key adds the increment to its looked-up value. -/
theorem lookupD_bump_self (acc : List (String × Int)) (k : String) (q : Int) :
    lookupD (bump acc k q) k = lookupD acc k + q := by
  unfold bump
  split
  · rename_i hany
    apply lookupD_update_of_mem
    rcases List.any_eq_true.mp hany with ⟨p, hp, hk⟩
    exact (by simpa using hk : p.1 = k) ▸ List.mem_map_of_mem _ hp
  · rename_i hany
    apply lookupD_append_self
    intro hmem
    rcases List.mem_map.mp hmem with ⟨p, hp, hk⟩
    exact hany (List.any_eq_true.mpr ⟨p, hp, by simp [hk]⟩)

/-- Bumping one key leaves every other key's looked-up value unchanged. -/
theorem lookupD_bump_ne (acc : List (String × Int)) (k : String) (q : Int)
    (x : String) (hx : x ≠ k) : lookupD (bump acc k q) x = lookupD acc x := by
  unfold bump
  split
  · exact lookupD_update_ne k q x hx acc
  · exact lookupD_append_ne k q x hx acc

/-- The keys accumulated by the `product_sales` loop over some rows,
starting from any dictionary: exactly the starting keys plus the non-empty
product names of those rows. -/
theorem product_acc_keys_mem :
    ∀ (sales : List SalesRow) (acc : List (String × Int)) (x : String),
      (x ∈ ((sales.foldl (fun acc r =>
          if r.name_ar == "" then acc else bump acc r.name_ar r.quantity) acc).map
            Prod.fst) ↔
        x ∈ acc.map Prod.fst ∨ (x ≠ "" ∧ ∃ r ∈ sales, r.name_ar = x)) := by
  intro sales
  induction sales with
  | nil => intro acc x; simp
  | cons r rest ih =>
    intro acc x
    rw [List.foldl_cons]
    by_cases hr : r.name_ar = ""
    · rw [if_pos (by simp [hr]), ih]
      constructor
      · rintro (h | ⟨hx, r2, hr2, hx2⟩)
        · exact Or.inl h
        · exact Or.inr ⟨hx, r2, List.mem_cons_of_mem _ hr2, hx2⟩
      · rintro (h | ⟨hx, r2, hr2, hx2⟩)
        · exact Or.inl h
        · rcases List.mem_cons.mp hr2 with rfl | h2
          · exact absurd (hx2 ▸ hr) hx
          · exact Or.inr ⟨hx, r2, h2, hx2⟩
    · rw [if_neg (by simp [hr]), ih]
      rw [bump_keys_mem]
      constructor
      · rintro ((rfl | h) | ⟨hx, r2, hr2, hx2⟩)
        · exact Or.inr ⟨hr, r, List.mem_cons_self _ _, rfl⟩
        · exact Or.inl h
        · exact Or.inr ⟨hx, r2, List.mem_cons_of_mem _ hr2, hx2⟩
      · rintro (h | ⟨hx, r2, hr2, hx2⟩)
        · exact Or.inl (Or.inr h)
        · rcases List.mem_cons.mp hr2 with rfl | h2
          · exact Or.inl (Or.inl hx2.symm)
          · exact Or.inr ⟨hx, r2, h2, hx2⟩

/-- The `product_sales` loop keeps the key list duplicate-free. -/
theorem product_acc_keys_nodup :
    ∀ (sales : List SalesRow) (acc : List (String × Int)),
      (acc.map Prod.fst).Nodup →
      (((sales.foldl (fun acc r =>
          if r.name_ar == "" then acc else bump acc r.name_ar r.quantity) acc).map
            Prod.fst)).Nodup := by
  intro sales
  induction sales with
  | nil => intro acc h; simpa using h
  | cons r rest ih =>
    intro acc h
    rw [List.foldl_cons]
    by_cases hr : r.name_ar = ""
    · rw [if_pos (by simp [hr])]
      exact ih acc h
    · rw [if_neg (by simp [hr])]
      exact ih _ (bump_keys_nodup acc _ _ h)

/-- The `product_sales` loop accumulates, for every non-empty name, the
summed quantity of the rows bearing that name. -/
theorem product_acc_lookup :
    ∀ (sales : List SalesRow) (acc : List (String × Int)) (name : String),
      name ≠ "" →
      lookupD (sales.foldl (fun acc r =>
          if r.name_ar == "" then acc else bump acc r.name_ar r.quantity) acc) name =
        lookupD acc name + spec_product_qty sales name := by
  intro sales
  induction sales with
  | nil => intro acc name _; simp [spec_product_qty]
  | cons r rest ih =>
    intro acc name hname
    rw [List.foldl_cons]
    by_cases hr : r.name_ar = ""
    · rw [if_pos (by simp [hr])]
      have hne : (r.name_ar == name) = false := by
        simp only [beq_eq_false_iff_ne]
        exact fun hcon => hname ((hr ▸ hcon : ("" : String) = name)).symm
      rw [ih acc name hname]
      simp [spec_product_qty, List.filter_cons, hne]
    · rw [if_neg (by simp [hr])]
      by_cases hrn : r.name_ar = name
      · rw [ih _ name hname, hrn, lookupD_bump_self]
        have hpos : (r.name_ar == name) = true := by simp [hrn]
        simp only [spec_product_qty, List.filter_cons, hpos, if_true, List.map_cons,
          List.sum_cons]
        have : spec_product_qty rest name =
            ((rest.filter (fun r2 => r2.name_ar == name)).map
              (fun r2 => r2.quantity)).sum := rfl
        omega
      · rw [ih _ name hname, lookupD_bump_ne _ _ _ _ (fun hcon => hrn hcon.symm)]
        have hne : (r.name_ar == name) = false := by
          simp only [beq_eq_false_iff_ne]
          exact hrn
        simp [spec_product_qty, List.filter_cons, hne]

/-- In a dictionary with duplicate-free keys, every entry's value is the
looked-up value of its key. -/
theorem snd_eq_lookupD :
    ∀ (acc : List (String × Int)), (acc.map Prod.fst).Nodup →
      ∀ p ∈ acc, p.2 = lookupD acc p.1 := by
  intro acc
  induction acc with
  | nil => intro _ p hp; simp at hp
  | cons a rest ih =>
    intro h p hp
    rcases List.mem_cons.mp hp with rfl | hmem
    · simp [lookupD]
    · rw [List.map_cons] at h
      obtain ⟨h1, htail⟩ := List.nodup_cons.mp h
      have hne : (a.1 == p.1) = false := by
        simp only [beq_eq_false_iff_ne]
        intro hcon
        exact h1 (hcon ▸ List.mem_map_of_mem _ hmem)
      simp only [lookupD, hne, Bool.false_eq_true, if_false]
      exact ih htail p hmem

/-- A present key pairs with its looked-up value somewhere in the list. -/
theorem mem_of_key_mem :
    ∀ (acc : List (String × Int)) (k : String), k ∈ acc.map Prod.fst →
      (k, lookupD acc k) ∈ acc := by
  intro acc
  induction acc with
  | nil => intro k h; simp at h
  | cons a rest ih =>
    intro k hmem
    by_cases ha : (a.1 == k) = true
    · have : a.1 = k := by simpa using ha
      simp only [lookupD, ha, if_true]
      exact this ▸ (Prod.mk.eta ▸ List.mem_cons_self a rest)
    · have hk : k ∈ rest.map Prod.fst := by
        rw [List.map_cons] at hmem
        rcases List.mem_cons.mp hmem with rfl | h2
        · exact absurd (by simp) ha
        · exact h2
      simp only [lookupD, ha, Bool.false_eq_true, if_false]
      exact List.mem_cons_of_mem _ (ih k hk)

/-- Every listed value is bounded by the running maximum. -/
theorem le_foldl_max :
    ∀ (xs : List Int) (x v : Int), v = x ∨ v ∈ xs → v ≤ xs.foldl max x := by
  intro xs
  induction xs with
  | nil =>
    rintro x v (rfl | h)
    · simp
    · simp at h
  | cons y ys ih =>
    rintro x v (rfl | h)
    · exact le_trans (le_max_left v y) (ih _ _ (Or.inl rfl))
    · rcases List.mem_cons.mp h with rfl | h2
      · exact le_trans (le_max_right x v) (ih _ _ (Or.inl rfl))
      · exact ih _ _ (Or.inr h2)

/-- The running maximum is the seed or one of the listed values. -/
theorem foldl_max_mem :
    ∀ (xs : List Int) (x : Int), xs.foldl max x = x ∨ xs.foldl max x ∈ xs := by
  intro xs
  induction xs with
  | nil => intro x; simp
  | cons y ys ih =>
    intro x
    rw [List.foldl_cons]
    rcases ih (max x y) with h | h
    · rcases max_choice x y with hc | hc
      · exact Or.inl (by rw [h, hc])
      · exact Or.inr (by rw [h, hc]; exact List.mem_cons_self _ _)
    · exact Or.inr (List.mem_cons_of_mem _ h)

/-- `listMaxInt` bounds every element of a non-empty list. -/
theorem le_listMaxInt (l : List Int) (v : Int) (hv : v ∈ l) : v ≤ listMaxInt l := by
  cases l with
  | nil => simp at hv
  | cons x xs =>
    rcases List.mem_cons.mp hv with rfl | h
    · exact le_foldl_max xs v v (Or.inl rfl)
    · exact le_foldl_max xs x v (Or.inr h)

/-- `listMaxInt` of a non-empty list is one of its elements. -/
theorem listMaxInt_mem (l : List Int) (hne : l ≠ []) : listMaxInt l ∈ l := by
  cases l with
  | nil => exact absurd rfl hne
  | cons x xs =>
    rcases foldl_max_mem xs x with h | h
    · simp only [listMaxInt, h]
      exact List.mem_cons_self _ _
    · simp only [listMaxInt]
      exact List.mem_cons_of_mem _ h

/-- Claim C5: `get_best_selling_products` accumulates summed quantity per
distinct full product name and keeps exactly the names whose summed quantity
is maximal — all tied names, not a single winner; rows (A,5),(B,5),(C,3)
yield A and B, joined as "A, B". -/
theorem C5_best_products_ties :
    (∀ (sales : List SalesRow), sales ≠ [] → ∀ name : String,
      (name ∈ best_products_list sales ↔
        ((name ≠ "" ∧ ∃ r ∈ sales, r.name_ar = name) ∧
         ∀ other : String, other ≠ "" → (∃ r ∈ sales, r.name_ar = other) →
           spec_product_qty sales other ≤ spec_product_qty sales name))) ∧
    (get_best_selling_products true
        [{ idx := 0, name_ar := "A", quantity := 5 },
         { idx := 1, name_ar := "B", quantity := 5 },
         { idx := 2, name_ar := "C", quantity := 3 }] = "A, B" ∧
     best_products_list
        [{ idx := 0, name_ar := "A", quantity := 5 },
         { idx := 1, name_ar := "B", quantity := 5 },
         { idx := 2, name_ar := "C", quantity := 3 }] = ["A", "B"]) := by
  constructor
  · intro sales hne name
    have hkeys : ∀ x : String,
        x ∈ (product_sales_acc sales).map Prod.fst ↔
          (x ≠ "" ∧ ∃ r ∈ sales, r.name_ar = x) := by
      intro x
      have := product_acc_keys_mem sales [] x
      simpa [product_sales_acc] using this
    have hnodup : ((product_sales_acc sales).map Prod.fst).Nodup := by
      have := product_acc_keys_nodup sales [] (by simp)
      simpa [product_sales_acc] using this
    have hlook : ∀ x : String, x ≠ "" →
        lookupD (product_sales_acc sales) x = spec_product_qty sales x := by
      intro x hx
      have := product_acc_lookup sales [] x hx
      simpa [product_sales_acc, lookupD] using this
    simp only [best_products_list]
    constructor
    · intro hmem
      obtain ⟨p, hp, rfl⟩ := List.mem_map.mp hmem
      obtain ⟨hpacc, hpmax⟩ := List.mem_filter.mp hp
      have hkey : p.1 ∈ (product_sales_acc sales).map Prod.fst :=
        List.mem_map_of_mem _ hpacc
      have hname := (hkeys p.1).mp hkey
      refine ⟨hname, ?_⟩
      intro other hother hexists
      have hokey : other ∈ (product_sales_acc sales).map Prod.fst :=
        (hkeys other).mpr ⟨hother, hexists⟩
      have hopair := mem_of_key_mem (product_sales_acc sales) other hokey
      have hole : lookupD (product_sales_acc sales) other ≤
          listMaxInt ((product_sales_acc sales).map (fun p => p.2)) := by
        apply le_listMaxInt
        exact List.mem_map.mpr ⟨(other, lookupD (product_sales_acc sales) other),
          hopair, rfl⟩
      have hpval : p.2 = lookupD (product_sales_acc sales) p.1 :=
        snd_eq_lookupD (product_sales_acc sales) hnodup p hpacc
      have hpmax2 : p.2 = listMaxInt ((product_sales_acc sales).map (fun p => p.2)) := by
        simpa using hpmax
      rw [← hlook other hother, ← hlook p.1 hname.1, ← hpval, hpmax2]
      exact hole
    · rintro ⟨⟨hname, hex⟩, hmaxforall⟩
      have hkey : name ∈ (product_sales_acc sales).map Prod.fst :=
        (hkeys name).mpr ⟨hname, hex⟩
      have hpair := mem_of_key_mem (product_sales_acc sales) name hkey
      have hvalsne : (product_sales_acc sales).map (fun p => p.2) ≠ [] := by
        intro hcon
        rw [List.map_eq_nil_iff] at hcon
        rw [hcon] at hkey
        simp at hkey
      have hmaxmem := listMaxInt_mem _ hvalsne
      obtain ⟨p0, hp0, hp0v⟩ := List.mem_map.mp hmaxmem
      have hp0key : p0.1 ∈ (product_sales_acc sales).map Prod.fst :=
        List.mem_map_of_mem _ hp0
      have hp0spec := (hkeys p0.1).mp hp0key
      have h1 : spec_product_qty sales p0.1 ≤ spec_product_qty sales name :=
        hmaxforall p0.1 hp0spec.1 hp0spec.2
      have h2 : lookupD (product_sales_acc sales) name ≤
          listMaxInt ((product_sales_acc sales).map (fun p => p.2)) := by
        apply le_listMaxInt
        exact List.mem_map.mpr ⟨(name, lookupD (product_sales_acc sales) name),
          hpair, rfl⟩
      have h3 : p0.2 = lookupD (product_sales_acc sales) p0.1 :=
        snd_eq_lookupD (product_sales_acc sales) hnodup p0 hp0
      have heq : lookupD (product_sales_acc sales) name =
          listMaxInt ((product_sales_acc sales).map (fun p => p.2)) := by
        apply le_antisymm h2
        rw [← hp0v]
        show p0.2 ≤ lookupD (product_sales_acc sales) name
        rw [h3, hlook p0.1 hp0spec.1, hlook name hname]
        exact h1
      apply List.mem_map.mpr
      refine ⟨(name, lookupD (product_sales_acc sales) name), ?_, rfl⟩
      apply List.mem_filter.mpr
      exact ⟨hpair, by simp [heq]⟩
  · constructor
    · decide
    · decide

/-- Instantiation of claim C5's tie characterization at a concrete input. -/
theorem C5_best_products_ties_witness :
    ("A" ∈ best_products_list
        [{ idx := 0, name_ar := "A", quantity := 5 },
         { idx := 1, name_ar := "B", quantity := 5 },
         { idx := 2, name_ar := "C", quantity := 3 }] ↔
      (("A" ≠ "" ∧ ∃ r ∈ [({ idx := 0, name_ar := "A", quantity := 5 } : SalesRow),
          { idx := 1, name_ar := "B", quantity := 5 },
          { idx := 2, name_ar := "C", quantity := 3 }], r.name_ar = "A") ∧
       ∀ other : String, other ≠ "" →
         (∃ r ∈ [({ idx := 0, name_ar := "A", quantity := 5 } : SalesRow),
            { idx := 1, name_ar := "B", quantity := 5 },
            { idx := 2, name_ar := "C", quantity := 3 }], r.name_ar = other) →
         spec_product_qty
            [{ idx := 0, name_ar := "A", quantity := 5 },
             { idx := 1, name_ar := "B", quantity := 5 },
             { idx := 2, name_ar := "C", quantity := 3 }] other ≤
           spec_product_qty
            [{ idx := 0, name_ar := "A", quantity := 5 },
             { idx := 1, name_ar := "B", quantity := 5 },
             { idx := 2, name_ar := "C", quantity := 3 }] "A")) :=
  C5_best_products_ties.1
    [{ idx := 0, name_ar := "A", quantity := 5 },
     { idx := 1, name_ar := "B", quantity := 5 },
     { idx := 2, name_ar := "C", quantity := 3 }] (by decide) "A"

/-- The summed quantity of the rows whose product name yields one size
token — the quantity the `size_sales` dictionary associates with it. -/
def spec_size_qty (sales : List SalesRow) (t : String) : Int :=
  ((sales.filter (fun r => size_token r.name_ar == some t)).map
    (fun r => r.quantity)).sum

/-- The tokens of a stream not yet seen, in first-appearance order — the
order in which a Python dict acquires its keys. -/
def dedupNew (seen : List String) : List String → List String
  | [] => []
  | t :: rest =>
    if seen.contains t then dedupNew seen rest
    else t :: dedupNew (seen ++ [t]) rest

/-- The full entry Python's `max(d, key=d.get)` scan settles on (key and
value); `pyMaxByValue` returns its key. -/
def pyMaxEntry : List (String × Int) → String × Int
  | [] => ("", 0)
  | p :: ps => ps.foldl (fun best q => if best.2 < q.2 then q else best) p

/-- Key search by `any` agrees with `contains` on the key list. -/
theorem any_fst_contains (acc : List (String × Int)) (t : String) :
    acc.any (fun p => p.1 == t) = (acc.map Prod.fst).contains t := by
  induction acc with
  | nil => rfl
  | cons p rest ih =>
    rw [List.any_cons, List.map_cons, List.contains_cons, ih]
    by_cases h : p.1 = t
    · simp [h]
    · have h1 : (p.1 == t) = false := by simpa using h
      have h2 : (t == p.1) = false := by
        simp only [beq_eq_false_iff_ne]
        exact fun hcon => h hcon.symm
      rw [h1, h2]

/-- The key list built by the `size_sales` loop: the starting keys followed
by the unseen size tokens in first-appearance order. -/
theorem size_acc_keys :
    ∀ (sales : List SalesRow) (acc : List (String × Int)),
      ((sales.foldl (fun acc r =>
          match size_token r.name_ar with
          | some t => bump acc t r.quantity
          | none => acc) acc).map Prod.fst) =
        acc.map Prod.fst ++ dedupNew (acc.map Prod.fst)
          (sales.filterMap (fun r => size_token r.name_ar)) := by
  intro sales
  induction sales with
  | nil => intro acc; simp [dedupNew]
  | cons r rest ih =>
    intro acc
    rw [List.foldl_cons, List.filterMap_cons]
    cases htok : size_token r.name_ar with
    | none => simpa using ih acc
    | some t =>
      rw [ih (bump acc t r.quantity), bump_keys, any_fst_contains]
      simp only [dedupNew]
      by_cases hc : ((acc.map Prod.fst).contains t) = true
      · rw [if_pos hc, if_pos hc]
      · rw [if_neg hc, if_neg hc]
        simp
  
/-- `dedupNew` is `uniqFirst` of the not-yet-seen tokens. -/
theorem dedupNew_eq_uniqFirst :
    ∀ (l : List String) (seen : List String),
      dedupNew seen l = uniqFirst (l.filter (fun x => !(seen.contains x))) := by
  intro l
  induction l with
  | nil => intro seen; simp [dedupNew, uniqFirst]
  | cons t rest ih =>
    intro seen
    by_cases hc : (seen.contains t) = true
    · simp only [dedupNew, hc, if_true, List.filter_cons, Bool.not_true,
        Bool.false_eq_true, if_false]
      exact ih seen
    · simp only [dedupNew, hc, Bool.false_eq_true, if_false, List.filter_cons,
        Bool.not_false, if_true]
      rw [uniqFirst, List.filter_filter, ih (seen ++ [t])]
      congr 1
      apply congrArg
      apply List.filter_congr
      intro x _
      by_cases h1 : x = t
      · simp [h1, hc]
      · by_cases h2 : (seen.contains x) = true <;> simp [h1, h2]

/-- The `size_sales` loop accumulates, for every token, the summed quantity
of the rows yielding that token. -/
theorem size_acc_lookup :
    ∀ (sales : List SalesRow) (acc : List (String × Int)) (t : String),
      lookupD (sales.foldl (fun acc r =>
          match size_token r.name_ar with
          | some t2 => bump acc t2 r.quantity
          | none => acc) acc) t =
        lookupD acc t + spec_size_qty sales t := by
  intro sales
  induction sales with
  | nil => intro acc t; simp [spec_size_qty]
  | cons r rest ih =>
    intro acc t
    rw [List.foldl_cons]
    cases htok : size_token r.name_ar with
    | none =>
      have hf : (size_token r.name_ar == some t) = false := by simp [htok]
      rw [ih acc t]
      simp [spec_size_qty, List.filter_cons, hf]
    | some u =>
      by_cases hut : u = t
      · subst hut
        rw [ih _ u, lookupD_bump_self]
        have hpos : (size_token r.name_ar == some u) = true := by simp [htok]
        simp only [spec_size_qty, List.filter_cons, hpos, if_true, List.map_cons,
          List.sum_cons]
        have hrest : spec_size_qty rest u =
            ((rest.filter (fun r2 => size_token r2.name_ar == some u)).map
              (fun r2 => r2.quantity)).sum := rfl
        omega
      · rw [ih _ t, lookupD_bump_ne _ _ _ _ (fun hcon => hut hcon.symm)]
        have hne2 : (size_token r.name_ar == some t) = false := by
          simp [htok, hut]
        simp [spec_size_qty, List.filter_cons, hne2]

/-- The `size_sales` loop keeps the key list duplicate-free. -/
theorem size_acc_keys_nodup :
    ∀ (sales : List SalesRow) (acc : List (String × Int)),
      (acc.map Prod.fst).Nodup →
      (((sales.foldl (fun acc r =>
          match size_token r.name_ar with
          | some t => bump acc t r.quantity
          | none => acc) acc).map Prod.fst)).Nodup := by
  intro sales
  induction sales with
  | nil => intro acc h; simpa using h
  | cons r rest ih =>
    intro acc h
    rw [List.foldl_cons]
    cases htok : size_token r.name_ar with
    | none => exact ih acc h
    | some t => exact ih _ (bump_keys_nodup acc _ _ h)

/-- Every scanned entry's value is bounded by the value the Python `max`
scan settles on. -/
theorem pyFold_ge :
    ∀ (ps : List (String × Int)) (p y : String × Int),
      y = p ∨ y ∈ ps →
      y.2 ≤ (ps.foldl (fun best q => if best.2 < q.2 then q else best) p).2 := by
  intro ps
  induction ps with
  | nil =>
    intro p y hy
    rcases hy with h | h
    · rw [h, List.foldl_nil]
    · simp at h
  | cons q qs ih =>
    intro p y hy
    rw [List.foldl_cons]
    rcases hy with h | h
    · by_cases hlt : p.2 < q.2
      · rw [if_pos hlt, h]
        exact le_trans (le_of_lt hlt) (ih q q (Or.inl rfl))
      · rw [if_neg hlt]
        exact ih p y (Or.inl h)
    · rcases List.mem_cons.mp h with h2 | h2
      · by_cases hlt : p.2 < q.2
        · rw [if_pos hlt]
          exact ih q y (Or.inl h2)
        · rw [if_neg hlt, h2]
          exact le_trans (not_lt.mp hlt) (ih p p (Or.inl rfl))
      · by_cases hlt : p.2 < q.2
        · rw [if_pos hlt]
          exact ih q y (Or.inr h2)
        · rw [if_neg hlt]
          exact ih p y (Or.inr h2)

/-- The Python `max` scan settles on the first entry attaining the maximal
value: everything before it in scan order is strictly smaller. -/
theorem pyFold_first :
    ∀ (ps : List (String × Int)) (p : String × Int),
      ∃ l1 l2 : List (String × Int),
        p :: ps = l1 ++
          (ps.foldl (fun best q => if best.2 < q.2 then q else best) p) :: l2 ∧
        ∀ y ∈ l1,
          y.2 < (ps.foldl (fun best q => if best.2 < q.2 then q else best) p).2 := by
  intro ps
  induction ps with
  | nil => intro p; exact ⟨[], [], by simp, by simp⟩
  | cons q qs ih =>
    intro p
    rw [List.foldl_cons]
    by_cases hlt : p.2 < q.2
    · rw [if_pos hlt]
      obtain ⟨l1, l2, hdec, hstr⟩ := ih q
      refine ⟨p :: l1, l2, ?_, ?_⟩
      · rw [List.cons_append, ← hdec]
      · intro y hy
        rcases List.mem_cons.mp hy with rfl | h2
        · exact lt_of_lt_of_le hlt (pyFold_ge qs q q (Or.inl rfl))
        · exact hstr y h2
    · rw [if_neg hlt]
      obtain ⟨l1, l2, hdec, hstr⟩ := ih p
      cases l1 with
      | nil =>
        simp only [List.nil_append] at hdec
        injection hdec with h1 h2
        refine ⟨[], q :: l2, ?_, by simp⟩
        rw [List.nil_append, ← h1, h2]
      | cons a l1t =>
        rw [List.cons_append] at hdec
        injection hdec with h1 h2
        have hpe : p.2 <
            (qs.foldl (fun best q => if best.2 < q.2 then q else best) p).2 := by
          have := hstr a (List.mem_cons_self _ _)
          rw [← h1] at this
          exact this
        refine ⟨p :: q :: l1t, l2, ?_, ?_⟩
        · rw [List.cons_append, List.cons_append, ← h2]
        · intro y hy
          rcases List.mem_cons.mp hy with rfl | hy2
          · exact hpe
          · rcases List.mem_cons.mp hy2 with rfl | hy3
            · exact lt_of_le_of_lt (not_lt.mp hlt) hpe
            · have := hstr y (List.mem_cons_of_mem _ hy3)
              exact this

/-- `find?` over a decomposition whose prefix all fails and whose pivot
succeeds returns the pivot. -/
theorem find?_append_of (P : String × Int → Bool) :
    ∀ (l1 : List (String × Int)) (e : String × Int) (l2 : List (String × Int)),
      (∀ y ∈ l1, P y = false) → P e = true →
      (l1 ++ e :: l2).find? P = some e := by
  intro l1
  induction l1 with
  | nil =>
    intro e l2 _ hPe
    rw [List.nil_append]
    exact List.find?_cons_of_pos _ hPe
  | cons a rest ih =>
    intro e l2 hneg hPe
    rw [List.cons_append, List.find?_cons_of_neg]
    · exact ih e l2 (fun y hy => hneg y (List.mem_cons_of_mem _ hy)) hPe
    · simp [hneg a (List.mem_cons_self _ _)]

/-- The entry the first-maximum search finds in a decomposed list. -/
theorem find?_first_max_aux (l l1 l2 : List (String × Int)) (e : String × Int)
    (hdec : l = l1 ++ e :: l2)
    (hge : ∀ y ∈ l, y.2 ≤ e.2)
    (hstr : ∀ y ∈ l1, y.2 < e.2) :
    l.find? (fun p => l.all (fun p2 => decide (p2.2 ≤ p.2))) = some e := by
  have hPe : (fun p => l.all (fun p2 => decide (p2.2 ≤ p.2))) e = true := by
    simp only [List.all_eq_true, decide_eq_true_eq]
    exact hge
  have hneg : ∀ y ∈ l1, (fun p => l.all (fun p2 => decide (p2.2 ≤ p.2))) y = false := by
    intro y hy
    rw [Bool.eq_false_iff]
    intro hcon
    rw [List.all_eq_true] at hcon
    have he : e ∈ l := hdec ▸ List.mem_append_right _ (List.mem_cons_self _ _)
    have h2 := hcon e he
    rw [decide_eq_true_eq] at h2
    exact absurd h2 (not_le.mpr (hstr y hy))
  nth_rewrite 2 [hdec]
  exact find?_append_of _ l1 e l2 hneg hPe

/-- The first-maximum search over any non-empty dictionary finds exactly
the entry the Python `max` scan settles on. -/
theorem find?_first_max (l : List (String × Int)) (hne : l ≠ []) :
    l.find? (fun p => l.all (fun p2 => decide (p2.2 ≤ p.2))) = some (pyMaxEntry l) := by
  obtain ⟨p, ps, rfl⟩ := List.exists_cons_of_ne_nil hne
  obtain ⟨l1, l2, hdec, hstr⟩ := pyFold_first ps p
  apply find?_first_max_aux _ l1 l2 _ hdec
  · intro y hy
    exact pyFold_ge ps p y (List.mem_cons.mp hy)
  · exact hstr

/-- `find?` only inspects members. -/
theorem find?_congr_mem {α : Type} (l : List α) (P Q : α → Bool)
    (h : ∀ x ∈ l, P x = Q x) : l.find? P = l.find? Q := by
  induction l with
  | nil => rfl
  | cons a rest ih =>
    have ha := h a (List.mem_cons_self _ _)
    by_cases hp : P a = true
    · rw [List.find?_cons_of_pos _ hp, List.find?_cons_of_pos _ (ha ▸ hp)]
    · rw [List.find?_cons_of_neg _ hp, List.find?_cons_of_neg _ (ha ▸ hp)]
      exact ih (fun x hx => h x (List.mem_cons_of_mem _ hx))

/-- `all` only inspects members. -/
theorem all_congr_mem {α : Type} (l : List α) (P Q : α → Bool)
    (h : ∀ x ∈ l, P x = Q x) : l.all P = l.all Q := by
  induction l with
  | nil => rfl
  | cons a rest ih =>
    rw [List.all_cons, List.all_cons, h a (List.mem_cons_self _ _),
      ih (fun x hx => h x (List.mem_cons_of_mem _ hx))]

/-- `all` over the key list is `all` over the entries. -/
theorem all_map_fst (l : List (String × Int)) (G : String → Bool) :
    (l.map Prod.fst).all G = l.all (fun p => G p.1) := by
  induction l with
  | nil => rfl
  | cons a rest ih => simp [List.all_cons, ih]

/-- `uniqFirst` of a non-empty list is non-empty. -/
theorem uniqFirst_ne_nil (l : List String) (h : l ≠ []) : uniqFirst l ≠ [] := by
  cases l with
  | nil => exact absurd rfl h
  | cons b rest => rw [uniqFirst]; exact List.cons_ne_nil _ _

/-- `pyMaxByValue` is the key of the entry the `max` scan settles on. -/
theorem pyMaxByValue_eq (l : List (String × Int)) (h : l ≠ []) :
    pyMaxByValue l = (pyMaxEntry l).1 := by
  cases l with
  | nil => exact absurd rfl h
  | cons p ps => rfl

/-- Claim C6: `get_best_selling_size` sums quantities per size token — the
trimmed substring after the last hyphen of each hyphenated product name,
empty tokens ignored — and returns the token with the maximum summed
quantity, the first-inserted (first-appearance) token winning among ties;
it returns the empty string when no row yields a size token. -/
theorem C6_best_size_first_max (sales : List SalesRow) :
    ((sales.filterMap (fun r => size_token r.name_ar)) = [] →
      get_best_selling_size true sales = "") ∧
    ((sales.filterMap (fun r => size_token r.name_ar)) ≠ [] →
      get_best_selling_size true sales =
        ((uniqFirst (sales.filterMap (fun r => size_token r.name_ar))).find?
          (fun t => (uniqFirst (sales.filterMap (fun r => size_token r.name_ar))).all
            (fun u => decide (spec_size_qty sales u ≤ spec_size_qty sales t)))).getD
          "") := by
  have hkeys : (size_sales_acc sales).map Prod.fst =
      uniqFirst (sales.filterMap (fun r => size_token r.name_ar)) := by
    calc (size_sales_acc sales).map Prod.fst
        = ([] : List (String × Int)).map Prod.fst ++
            dedupNew (([] : List (String × Int)).map Prod.fst)
              (sales.filterMap (fun r => size_token r.name_ar)) :=
          size_acc_keys sales []
      _ = dedupNew [] (sales.filterMap (fun r => size_token r.name_ar)) := by
          simp
      _ = uniqFirst ((sales.filterMap (fun r => size_token r.name_ar)).filter
            (fun x => !(([] : List String).contains x))) :=
          dedupNew_eq_uniqFirst _ []
      _ = uniqFirst (sales.filterMap (fun r => size_token r.name_ar)) := by
          congr 1
          apply List.filter_eq_self.mpr
          intro a _
          rfl
  have hnodup : ((size_sales_acc sales).map Prod.fst).Nodup :=
    size_acc_keys_nodup sales [] (by simp)
  have hlook : ∀ t : String,
      lookupD (size_sales_acc sales) t = spec_size_qty sales t := by
    intro t
    have := size_acc_lookup sales [] t
    simpa [size_sales_acc, lookupD] using this
  constructor
  · intro h
    have hacc : size_sales_acc sales = [] := by
      have hmap : (size_sales_acc sales).map Prod.fst = ([] : List String) := by
        rw [hkeys, h]
        simp [uniqFirst]
      exact List.map_eq_nil_iff.mp hmap
    unfold get_best_selling_size
    by_cases hs : sales.isEmpty
    · simp [hs]
    · simp [hs, hacc]
  · intro h
    have hacc_ne : size_sales_acc sales ≠ [] := by
      intro hcon
      apply uniqFirst_ne_nil _ h
      rw [← hkeys, hcon]
      rfl
    have hsales_ne : sales.isEmpty = false := by
      cases sales with
      | nil => simp at h
      | cons a rest => rfl
    have hge : get_best_selling_size true sales =
        pyMaxByValue (size_sales_acc sales) := by
      unfold get_best_selling_size
      have hai : (size_sales_acc sales).isEmpty = false := by
        cases hcon : size_sales_acc sales with
        | nil => exact absurd hcon hacc_ne
        | cons a rest => rfl
      simp [hsales_ne, hai]
    rw [hge, ← hkeys, List.find?_map]
    have hcong : ∀ p ∈ size_sales_acc sales,
        ((fun t => ((size_sales_acc sales).map Prod.fst).all
            (fun u => decide (spec_size_qty sales u ≤ spec_size_qty sales t))) ∘
          Prod.fst) p =
        (fun p0 => (size_sales_acc sales).all
          (fun p2 => decide (p2.2 ≤ p0.2))) p := by
      intro p hp
      show ((size_sales_acc sales).map Prod.fst).all
          (fun u => decide (spec_size_qty sales u ≤ spec_size_qty sales p.1)) =
        (size_sales_acc sales).all (fun p2 => decide (p2.2 ≤ p.2))
      rw [all_map_fst]
      apply all_congr_mem
      intro p2 hp2
      have h1 : spec_size_qty sales p2.1 = p2.2 := by
        rw [← hlook p2.1]
        exact (snd_eq_lookupD (size_sales_acc sales) hnodup p2 hp2).symm
      have h2 : spec_size_qty sales p.1 = p.2 := by
        rw [← hlook p.1]
        exact (snd_eq_lookupD (size_sales_acc sales) hnodup p hp).symm
      rw [h1, h2]
    rw [find?_congr_mem _ _ _ hcong, find?_first_max _ hacc_ne]
    rw [pyMaxByValue_eq _ hacc_ne]
    rfl

/-- Instantiation of claim C6 at concrete inputs: rows with names
"Shirt - M" (qty 2), "Shirt - L" (qty 2), "Plain" (qty 9) make M the best
size — first-inserted among the M/L tie — while a row set with no
hyphenated name yields the empty string. -/
theorem C6_best_size_first_max_witness :
    get_best_selling_size true
        [{ idx := 0, name_ar := "Shirt - M", quantity := 2 },
         { idx := 1, name_ar := "Shirt - L", quantity := 2 },
         { idx := 2, name_ar := "Plain", quantity := 9 }] =
      ((uniqFirst ([({ idx := 0, name_ar := "Shirt - M", quantity := 2 } : SalesRow),
          { idx := 1, name_ar := "Shirt - L", quantity := 2 },
          { idx := 2, name_ar := "Plain", quantity := 9 }].filterMap
            (fun r => size_token r.name_ar))).find?
        (fun t => (uniqFirst ([({ idx := 0, name_ar := "Shirt - M", quantity := 2 } : SalesRow),
            { idx := 1, name_ar := "Shirt - L", quantity := 2 },
            { idx := 2, name_ar := "Plain", quantity := 9 }].filterMap
              (fun r => size_token r.name_ar))).all
          (fun u => decide (spec_size_qty
              [{ idx := 0, name_ar := "Shirt - M", quantity := 2 },
               { idx := 1, name_ar := "Shirt - L", quantity := 2 },
               { idx := 2, name_ar := "Plain", quantity := 9 }] u ≤
            spec_size_qty
              [{ idx := 0, name_ar := "Shirt - M", quantity := 2 },
               { idx := 1, name_ar := "Shirt - L", quantity := 2 },
               { idx := 2, name_ar := "Plain", quantity := 9 }] t)))).getD "" ∧
    get_best_selling_size true [{ idx := 0, name_ar := "Plain", quantity := 9 }] = "" :=
  ⟨(C6_best_size_first_max
      [{ idx := 0, name_ar := "Shirt - M", quantity := 2 },
       { idx := 1, name_ar := "Shirt - L", quantity := 2 },
       { idx := 2, name_ar := "Plain", quantity := 9 }]).2 (by decide),
   (C6_best_size_first_max
      [{ idx := 0, name_ar := "Plain", quantity := 9 }]).1 (by decide)⟩

/-- Claim C9 as stated fails on the code: normalization does mutate the
caller's rows.  `df.columns = df.columns.str.strip()` and the brand-column
assignment inside `clean_brand_names` act in place on the caller's
dataframe object, so after the call the caller's object no longer holds the
values it held before: a frame with brand " nike " comes back holding
"Nike". -/
theorem C9_normalize_not_pure_counterexample :
    (normalizeCall { cols := ["brand"], rows := [{ brand := some " nike " }] }).2 ≠
      { cols := ["brand"], rows := [{ brand := some " nike " }] } := by decide

/-- Claim C9 amended: normalization returns a new frame with trimmed column
names, cleaned brand values and all-empty rows dropped, but the caller's
object is mutated in place up to the row-dropping step — after the call it
holds the trimmed column names and the cleaned brand values, with every row
retained. -/
theorem C9_normalize_effect (df : RawFrame) :
    ((normalizeCall df).2.cols = df.cols.map (fun c => pyStrip c)) ∧
    ((normalizeCall df).2.rows.length = df.rows.length) ∧
    ("brand" ∈ df.cols.map (fun c => pyStrip c) →
      (normalizeCall df).2.rows =
        df.rows.map (fun r => { r with brand := some (cleanBrandValue r.brand) })) ∧
    ("brand" ∉ df.cols.map (fun c => pyStrip c) →
      (normalizeCall df).2.rows = df.rows) ∧
    ((normalizeCall df).1 =
      { cols := (normalizeCall df).2.cols,
        rows := (normalizeCall df).2.rows.filter (fun r => !(rowIsAllNa r)) }) := by
  unfold normalizeCall clean_brand_names trimCols dropAllNaRows
  by_cases h : (({ df with cols := df.cols.map (fun c => pyStrip c) } :
      RawFrame).cols.contains "brand") = true
  · have hmem : "brand" ∈ df.cols.map (fun c => pyStrip c) := by
      simpa using h
    rw [if_pos h]
    exact ⟨rfl, by simp, fun _ => rfl, fun hcon => absurd hmem hcon, rfl⟩
  · have hmem : "brand" ∉ df.cols.map (fun c => pyStrip c) := by
      intro hcon
      exact h (by simpa using hcon)
    rw [if_neg h]
    exact ⟨rfl, rfl, fun hcon => absurd hcon hmem, fun _ => rfl, rfl⟩

/-- Instantiation of the amended claim C9 at a concrete frame. -/
theorem C9_normalize_effect_witness :
    ((normalizeCall { cols := [" brand "], rows := [{ brand := some " nike " }] }).2.rows =
      ([({ brand := some " nike " } : RawSalesRow)]).map
        (fun r => { r with brand := some (cleanBrandValue r.brand) })) ∧
    ((normalizeCall { cols := ["x"], rows := [{ brand := some " nike " }] }).2.rows =
      [({ brand := some " nike " } : RawSalesRow)]) :=
  ⟨(C9_normalize_effect { cols := [" brand "], rows := [{ brand := some " nike " }] }).2.2.1
      (by decide),
   (C9_normalize_effect { cols := ["x"], rows := [{ brand := some " nike " }] }).2.2.2.1
      (by decide)⟩

/-- In an index-sorted table, the index determines the row. -/
theorem idx_inj_of_sorted (rows : List SalesRow)
    (h : rows.Pairwise (fun a b => a.idx < b.idx)) :
    ∀ x ∈ rows, ∀ y ∈ rows, x.idx = y.idx → x = y := by
  induction rows with
  | nil => intro x hx; simp at hx
  | cons a l ih =>
    intro x hx y hy hxy
    obtain ⟨hhead, htail⟩ := List.pairwise_cons.mp h
    rcases List.mem_cons.mp hx with rfl | hx2
    · rcases List.mem_cons.mp hy with rfl | hy2
      · rfl
      · have := hhead y hy2
        omega
    · rcases List.mem_cons.mp hy with rfl | hy2
      · have := hhead x hx2
        omega
      · exact ih htail x hx2 y hy2 hxy

/-- The head, when present, is a member. -/
theorem head?_mem_list {α : Type} {l : List α} {a : α} (h : l.head? = some a) :
    a ∈ l := by
  cases l with
  | nil => simp at h
  | cons x xs =>
    rw [List.head?_cons] at h
    have : x = a := by simpa using h
    exact this ▸ List.mem_cons_self _ _

/-- `contains` on index lists is membership. -/
theorem contains_eq_true_iff_mem {x : Nat} {l : List Nat} :
    l.contains x = true ↔ x ∈ l := by simp

/-- On an index-sorted candidate list, the lowest-index element is the
first one. -/
theorem minIdxElem_eq_head :
    ∀ (l : List SalesRow), l.Pairwise (fun a b => a.idx < b.idx) →
      minIdxElem l = l.head? := by
  intro l
  induction l with
  | nil => intro h; rfl
  | cons r rs ih =>
    intro h
    obtain ⟨hhead, htail⟩ := List.pairwise_cons.mp h
    simp only [minIdxElem]
    rw [ih htail]
    cases hrs : rs.head? with
    | none => rfl
    | some m =>
      have hm : m ∈ rs := head?_mem_list hrs
      have hle : r.idx ≤ m.idx := le_of_lt (hhead m hm)
      simp [hle, List.head?_cons]

/-- The code's refund loop (removal set seeded with every refund index
up front) and the spec's narrative loop (each refund's index added as it is
processed, the matched original chosen by lowest index) agree, on an
index-sorted table, about which indices end up removed. -/
theorem reconcile_loop_agree (rows : List SalesRow)
    (hsort : rows.Pairwise (fun a b => a.idx < b.idx)) :
    ∀ (rs : List SalesRow) (a s : List Nat),
      (∀ q ∈ rs, q ∈ rows ∧ q.quantity < 0) →
      (∀ r ∈ rows, 0 < r.quantity → (r.idx ∈ a ↔ r.idx ∈ s)) →
      (∀ r ∈ rows, r.quantity < 0 → r.idx ∈ a ∧ (r.idx ∈ s ∨ r ∈ rs)) →
      (∀ x ∈ a, ∃ r2, r2 ∈ rows ∧ r2.idx = x ∧ r2.quantity ≠ 0) →
      (∀ x ∈ s, ∃ r2, r2 ∈ rows ∧ r2.idx = x ∧ r2.quantity ≠ 0) →
      ∀ r ∈ rows,
        (r.idx ∈ rs.foldl (refundStep rows) a ↔
          r.idx ∈ rs.foldl (specStep rows) s) := by
  intro rs
  induction rs with
  | nil =>
    intro a s _ inv2 inv3 inv4 inv5 r hr
    simp only [List.foldl_nil]
    rcases lt_trichotomy r.quantity 0 with hq | hq | hq
    · have h3 := inv3 r hr hq
      rcases h3.2 with hs | habs
      · exact ⟨fun _ => hs, fun _ => h3.1⟩
      · simp at habs
    · constructor
      · intro hx
        obtain ⟨r2, hr2, hidx, hq2⟩ := inv4 r.idx hx
        have := idx_inj_of_sorted rows hsort r2 hr2 r hr hidx
        rw [this] at hq2
        exact absurd hq.symm (fun hcon => hq2 hcon.symm)
      · intro hx
        obtain ⟨r2, hr2, hidx, hq2⟩ := inv5 r.idx hx
        have := idx_inj_of_sorted rows hsort r2 hr2 r hr hidx
        rw [this] at hq2
        exact absurd hq.symm (fun hcon => hq2 hcon.symm)
    · exact inv2 r hr hq
  | cons refund rs2 ih =>
    intro a s inv1 inv2 inv3 inv4 inv5
    have hrefund := inv1 refund (List.mem_cons_self _ _)
    have hMc :
        ((rows.filter (fun r =>
            r.barcode == refund.barcode && r.brand == refund.brand &&
            decide (0 < r.quantity) && !(a.contains r.idx))).filter
          (fun r => r.quantity == (refund.quantity.natAbs : Int))) =
        rows.filter (fun r =>
            !((s ++ [refund.idx]).contains r.idx) && r.barcode == refund.barcode &&
            r.brand == refund.brand && decide (0 < r.quantity) &&
            r.quantity == (refund.quantity.natAbs : Int)) := by
      rw [List.filter_filter]
      apply List.filter_congr
      intro r hr
      by_cases hqty : 0 < r.quantity
      · have hca : (a.contains r.idx) = (s.contains r.idx) := by
          rw [Bool.eq_iff_iff, contains_eq_true_iff_mem, contains_eq_true_iff_mem]
          exact inv2 r hr hqty
        have hcs1 : ((s ++ [refund.idx]).contains r.idx) = (s.contains r.idx) := by
          rw [Bool.eq_iff_iff, contains_eq_true_iff_mem, contains_eq_true_iff_mem]
          constructor
          · intro hx
            rcases List.mem_append.mp hx with h2 | h2
            · exact h2
            · exfalso
              have heq : r.idx = refund.idx := by simpa using h2
              have hre := idx_inj_of_sorted rows hsort r hr refund hrefund.1 heq
              rw [hre] at hqty
              have := hrefund.2
              omega
          · exact fun hx => List.mem_append_left _ hx
        have hq2 : (decide (0 < r.quantity)) = true := by simpa using hqty
        rw [hcs1, ← hca, hq2]
        cases h1 : (r.barcode == refund.barcode) <;>
          cases h2 : (r.brand == refund.brand) <;>
          cases h3 : (a.contains r.idx) <;>
          cases h4 : (r.quantity == (refund.quantity.natAbs : Int)) <;> rfl
      · have hq2 : (decide (0 < r.quantity)) = false := by simpa using hqty
        rw [hq2]
        simp
    have hsorted_filter : (rows.filter (fun r =>
        !((s ++ [refund.idx]).contains r.idx) && r.barcode == refund.barcode &&
        r.brand == refund.brand && decide (0 < r.quantity) &&
        r.quantity == (refund.quantity.natAbs : Int))).Pairwise
          (fun a b => a.idx < b.idx) :=
      List.Pairwise.sublist (List.filter_sublist _) hsort
    have hmin := minIdxElem_eq_head _ hsorted_filter
    rw [List.foldl_cons, List.foldl_cons]
    have hstep_c : refundStep rows a refund =
        (match (rows.filter (fun r =>
            !((s ++ [refund.idx]).contains r.idx) && r.barcode == refund.barcode &&
            r.brand == refund.brand && decide (0 < r.quantity) &&
            r.quantity == (refund.quantity.natAbs : Int))).head? with
          | some m => a ++ [m.idx]
          | none => a) := by
      simp only [refundStep]
      rw [hMc]
    have hstep_s : specStep rows s refund =
        (match (rows.filter (fun r =>
            !((s ++ [refund.idx]).contains r.idx) && r.barcode == refund.barcode &&
            r.brand == refund.brand && decide (0 < r.quantity) &&
            r.quantity == (refund.quantity.natAbs : Int))).head? with
          | some m => (s ++ [refund.idx]) ++ [m.idx]
          | none => s ++ [refund.idx]) := by
      simp only [specStep]
      rw [hmin]
    rw [hstep_c, hstep_s]
    have hne_refund : ∀ r ∈ rows, 0 < r.quantity → r.idx ≠ refund.idx := by
      intro r hr hq heq
      have hre := idx_inj_of_sorted rows hsort r hr refund hrefund.1 heq
      rw [hre] at hq
      have := hrefund.2
      omega
    cases hsel : (rows.filter (fun r =>
        !((s ++ [refund.idx]).contains r.idx) && r.barcode == refund.barcode &&
        r.brand == refund.brand && decide (0 < r.quantity) &&
        r.quantity == (refund.quantity.natAbs : Int))).head? with
    | none =>
      apply ih a (s ++ [refund.idx])
      · exact fun q hq => inv1 q (List.mem_cons_of_mem _ hq)
      · intro r hr hq
        constructor
        · intro hx
          exact List.mem_append_left _ ((inv2 r hr hq).mp hx)
        · intro hx
          rcases List.mem_append.mp hx with h2 | h2
          · exact (inv2 r hr hq).mpr h2
          · exact absurd (by simpa using h2) (hne_refund r hr hq)
      · intro r hr hq
        obtain ⟨ha, hs⟩ := inv3 r hr hq
        refine ⟨ha, ?_⟩
        rcases hs with hs | hmem
        · exact Or.inl (List.mem_append_left _ hs)
        · rcases List.mem_cons.mp hmem with rfl | h2
          · exact Or.inl (List.mem_append_right _ (by simp))
          · exact Or.inr h2
      · exact inv4
      · intro x hx
        rcases List.mem_append.mp hx with h2 | h2
        · exact inv5 x h2
        · have hxr : x = refund.idx := by simpa using h2
          exact ⟨refund, hrefund.1, hxr.symm, ne_of_lt hrefund.2⟩
    | some m =>
      have hmmem := head?_mem_list hsel
      obtain ⟨hmrows, hmpred⟩ := List.mem_filter.mp hmmem
      have hmfacts := hmpred
      simp only [Bool.and_eq_true, Bool.not_eq_true', decide_eq_true_eq] at hmfacts
      have hmq : 0 < m.quantity := hmfacts.1.2
      have hmnotins1 : m.idx ∉ (s ++ [refund.idx]) := by
        intro hmem2
        have hc := contains_eq_true_iff_mem.mpr hmem2
        have hf := hmfacts.1.1.1.1
        rw [hc] at hf
        simp at hf
      apply ih (a ++ [m.idx]) ((s ++ [refund.idx]) ++ [m.idx])
      · exact fun q hq => inv1 q (List.mem_cons_of_mem _ hq)
      · intro r hr hq
        rw [List.mem_append, List.mem_append, List.mem_append]
        constructor
        · rintro (hx | hx)
          · exact Or.inl (Or.inl ((inv2 r hr hq).mp hx))
          · exact Or.inr hx
        · rintro ((hx | hx) | hx)
          · exact Or.inl ((inv2 r hr hq).mpr hx)
          · exact absurd (by simpa using hx) (hne_refund r hr hq)
          · exact Or.inr hx
      · intro r hr hq
        obtain ⟨ha, hs⟩ := inv3 r hr hq
        refine ⟨List.mem_append_left _ ha, ?_⟩
        rcases hs with hs | hmem
        · exact Or.inl (List.mem_append_left _ (List.mem_append_left _ hs))
        · rcases List.mem_cons.mp hmem with rfl | h2
          · exact Or.inl (List.mem_append_left _ (List.mem_append_right _ (by simp)))
          · exact Or.inr h2
      · intro x hx
        rcases List.mem_append.mp hx with h2 | h2
        · exact inv4 x h2
        · have hxm : x = m.idx := by simpa using h2
          exact ⟨m, hmrows, hxm.symm, ne_of_gt hmq⟩
      · intro x hx
        rcases List.mem_append.mp hx with h2 | h2
        · rcases List.mem_append.mp h2 with h3 | h3
          · exact inv5 x h3
          · have hxr : x = refund.idx := by simpa using h3
            exact ⟨refund, hrefund.1, hxr.symm, ne_of_lt hrefund.2⟩
        · have hxm : x = m.idx := by simpa using h2
          exact ⟨m, hmrows, hxm.symm, ne_of_gt hmq⟩

/-- The spec-side reconciler's result spelled out. -/
theorem reconcileSpec_spelled (rows : List SalesRow) :
    reconcileSpec rows =
      (rows.filter (fun r =>
         !(((rows.filter (fun r => decide (r.quantity < 0))).foldl (specStep rows)
             []).contains r.idx)),
       (rows.filter (fun r => decide (r.quantity < 0))).length,
       rows.length - (rows.filter (fun r =>
         !(((rows.filter (fun r => decide (r.quantity < 0))).foldl (specStep rows)
             []).contains r.idx))).length) := rfl

/-- Claim C1: on a table with both columns and index-sorted rows, the
reconciler behaves exactly as the spec narrates — refunds processed in
original row order, each removing itself and, when an exact not-yet-removed
match on barcode, brand and absolute quantity exists, additionally the
match with the lowest original row index; no original is consumed twice,
unmatched refunds remove nothing else, and the survivors keep their
original order. -/
theorem C1_reconciler_matches_spec (rows : List SalesRow)
    (hsort : rows.Pairwise (fun a b => a.idx < b.idx)) :
    remove_refunds_and_original_sales true true rows = reconcileSpec rows ∧
    (remove_refunds_and_original_sales true true rows).1.Sublist rows := by
  have hmain : ∀ r ∈ rows,
      (r.idx ∈ (rows.filter (fun r => decide (r.quantity < 0))).foldl (refundStep rows)
          ((rows.filter (fun r => decide (r.quantity < 0))).map (fun r => r.idx)) ↔
        r.idx ∈ (rows.filter (fun r => decide (r.quantity < 0))).foldl
          (specStep rows) []) := by
    apply reconcile_loop_agree rows hsort
    · intro q hq
      have h2 := List.mem_filter.mp hq
      exact ⟨h2.1, by simpa using h2.2⟩
    · intro r hr hq
      constructor
      · intro hx
        obtain ⟨r2, hr2, hidx⟩ := List.mem_map.mp hx
        have hr2f := List.mem_filter.mp hr2
        have hneg : r2.quantity < 0 := by simpa using hr2f.2
        have := idx_inj_of_sorted rows hsort r2 hr2f.1 r hr hidx
        rw [this] at hneg
        omega
      · intro hx
        simp at hx
    · intro r hr hq
      have hrf : r ∈ rows.filter (fun r => decide (r.quantity < 0)) :=
        List.mem_filter.mpr ⟨hr, by simpa using hq⟩
      exact ⟨List.mem_map_of_mem _ hrf, Or.inr hrf⟩
    · intro x hx
      obtain ⟨r2, hr2, hidx⟩ := List.mem_map.mp hx
      have hr2f := List.mem_filter.mp hr2
      have hneg : r2.quantity < 0 := by simpa using hr2f.2
      exact ⟨r2, hr2f.1, hidx, by omega⟩
    · intro x hx
      simp at hx
  have hfilters : rows.filter (fun r =>
        !((((rows.filter (fun r => decide (r.quantity < 0))).foldl (refundStep rows)
            ((rows.filter (fun r => decide (r.quantity < 0))).map
              (fun r => r.idx)))).contains r.idx)) =
      rows.filter (fun r =>
        !(((rows.filter (fun r => decide (r.quantity < 0))).foldl (specStep rows)
            []).contains r.idx)) := by
    apply List.filter_congr
    intro r hr
    have hc : ((rows.filter (fun r => decide (r.quantity < 0))).foldl (refundStep rows)
          ((rows.filter (fun r => decide (r.quantity < 0))).map
            (fun r => r.idx))).contains r.idx =
        ((rows.filter (fun r => decide (r.quantity < 0))).foldl (specStep rows)
          []).contains r.idx := by
      rw [Bool.eq_iff_iff, contains_eq_true_iff_mem, contains_eq_true_iff_mem]
      exact hmain r hr
    rw [hc]
  constructor
  · by_cases hemp : (rows.filter (fun r => decide (r.quantity < 0))).isEmpty
    · rw [remove_refunds_true_true, if_pos hemp, reconcileSpec_spelled]
      have hnil : rows.filter (fun r => decide (r.quantity < 0)) = [] :=
        List.isEmpty_iff.mp hemp
      rw [hnil]
      simp [List.foldl_nil, List.filter_eq_self.mpr]
    · rw [remove_refunds_spelled rows hemp, reconcileSpec_spelled, hfilters]
  · rw [remove_refunds_true_true]
    by_cases hemp : (rows.filter (fun r => decide (r.quantity < 0))).isEmpty
    · rw [if_pos hemp]
    · rw [if_neg hemp]
      exact List.filter_sublist _

/-- Instantiation of claim C1 at a concrete refund with one exact match. -/
theorem C1_reconciler_matches_spec_witness :
    (remove_refunds_and_original_sales true true
        [{ idx := 0, brand := "B", barcode := "x", quantity := 2 },
         { idx := 1, brand := "B", barcode := "x", quantity := 2 },
         { idx := 2, brand := "B", barcode := "x", quantity := -2 }] =
      reconcileSpec
        [{ idx := 0, brand := "B", barcode := "x", quantity := 2 },
         { idx := 1, brand := "B", barcode := "x", quantity := 2 },
         { idx := 2, brand := "B", barcode := "x", quantity := -2 }]) ∧
    (remove_refunds_and_original_sales true true
        [{ idx := 0, brand := "B", barcode := "x", quantity := 2 },
         { idx := 1, brand := "B", barcode := "x", quantity := 2 },
         { idx := 2, brand := "B", barcode := "x", quantity := -2 }]).1.Sublist
      [{ idx := 0, brand := "B", barcode := "x", quantity := 2 },
       { idx := 1, brand := "B", barcode := "x", quantity := 2 },
       { idx := 2, brand := "B", barcode := "x", quantity := -2 }] :=
  C1_reconciler_matches_spec
    [{ idx := 0, brand := "B", barcode := "x", quantity := 2 },
     { idx := 1, brand := "B", barcode := "x", quantity := 2 },
     { idx := 2, brand := "B", barcode := "x", quantity := -2 }] (by decide)
